import Mathlib

/-!
Verification of the CLOAKmatch PSI service core against its specification.

The development shallowly embeds the Python sources:
  * `server/data_sync.py`   — dataset reconciler, rekey, change-log writer
  * `server/api_server.py`  — sync / evaluate request handlers
  * `client/cli.py`         — client sync, active-set maintenance, query matching
  * `shared/crypto_tools.py`— OPRF helpers, HKDF-SHA512, AEAD wrappers

Byte strings (Python `bytes` and ASCII `str`) are modelled as `List Nat`,
one natural per byte.  External cryptographic primitives that the code calls
through libsodium / hashlib (SHA-512, ristretto255 operations, the
XChaCha20-Poly1305 AEAD) are parameters of the embedded functions: the code
treats them as black boxes, and every theorem quantifies over them (adding
the standard interface facts — e.g. a SHA-512 digest is 64 bytes — as
hypotheses where needed).  Everything else (tokenisation, hex codecs, HKDF,
the hash-chain construction, file formats, dictionaries) is embedded
concretely, byte for byte.
-/

namespace CLOAKmatch

/-- Byte strings: Python `bytes` / ASCII `str` as lists of naturals. -/
abbrev Bytes := List Nat

/-- Whitespace bytes recognised by Python's `str.split()` / `str.strip()`
(space, tab, newline, carriage return, vertical tab, form feed). -/
def isSpaceByte (b : Nat) : Bool :=
  b == 32 || b == 9 || b == 10 || b == 13 || b == 11 || b == 12

/-- Accumulator pass of `str.split()`: split on runs of whitespace, dropping
empty tokens. -/
def splitWsAux : Bytes → Bytes → List Bytes
  | [], acc => if acc = [] then [] else [acc.reverse]
  | b :: rest, acc =>
      if isSpaceByte b then
        if acc = [] then splitWsAux rest []
        else acc.reverse :: splitWsAux rest []
      else splitWsAux rest (b :: acc)

/-- Python `s.split()` with no separator argument. -/
def splitWs (s : Bytes) : List Bytes := splitWsAux s []

/-- Python `s.strip()`: drop leading and trailing whitespace. -/
def stripBytes (s : Bytes) : Bytes :=
  ((s.dropWhile isSpaceByte).reverse.dropWhile isSpaceByte).reverse

/-- Python `s.split(c)` for a one-byte separator: every field, empties kept. -/
def splitOnByte (c : Nat) : Bytes → List Bytes
  | [] => [[]]
  | b :: rest =>
      if b = c then [] :: splitOnByte c rest
      else match splitOnByte c rest with
        | [] => [[b]]
        | t :: ts => (b :: t) :: ts

/-- ASCII uppercase of one byte (`str.upper()` restricted to ASCII). -/
def upperByte (b : Nat) : Nat := if 97 ≤ b ∧ b ≤ 122 then b - 32 else b

/-- ASCII uppercase of a byte string. -/
def upperBytes (s : Bytes) : Bytes := s.map upperByte

/-- ASCII lowercase of one byte (`str.lower()` restricted to ASCII). -/
def lowerByte (b : Nat) : Nat := if 65 ≤ b ∧ b ≤ 90 then b + 32 else b

/-- ASCII lowercase of a byte string. -/
def lowerBytes (s : Bytes) : Bytes := s.map lowerByte

/-- Lowercase hex digit for a nibble, as `bytes.hex()` prints it. -/
def hexDigitChar (n : Nat) : Nat := if n < 10 then 48 + n else 87 + n

/-- Python `bytes.hex()`: two lowercase hex characters per byte. -/
def toHex (bs : Bytes) : Bytes :=
  bs.flatMap (fun b => [hexDigitChar (b / 16 % 16), hexDigitChar (b % 16)])

/-- Value of one hex character, upper or lower case. -/
def hexVal (c : Nat) : Option Nat :=
  if 48 ≤ c ∧ c ≤ 57 then some (c - 48)
  else if 97 ≤ c ∧ c ≤ 102 then some (c - 87)
  else if 65 ≤ c ∧ c ≤ 70 then some (c - 55)
  else none

/-- Python `bytes.fromhex` on a string without separators: pairs of hex
characters; `none` on an odd length or a non-hex character. -/
def fromHex : Bytes → Option Bytes
  | [] => some []
  | [_] => none
  | c1 :: c2 :: rest =>
      match hexVal c1, hexVal c2, fromHex rest with
      | some h, some l, some tl => some ((16 * h + l) :: tl)
      | _, _, _ => none

/-- Portion of a byte string after its last comma, `none` when it has none
(the `rsplit(",", 1)` fallback of the log reader). -/
def afterLastComma (s : Bytes) : Option Bytes :=
  if 44 ∈ s then some (s.reverse.takeWhile (fun b => ¬ b = 44)).reverse else none

/-- Sixty-four zero bytes, the seed of every hash chain. -/
def zeros64 : Bytes := List.replicate 64 0

/-- ASCII bytes of the literal `ADDED`. -/
def ADDED : Bytes := [65, 68, 68, 69, 68]

/-- ASCII bytes of the literal `REMOVED`. -/
def REMOVED : Bytes := [82, 69, 77, 79, 86, 69, 68]

/-- ASCII byte of `-`, the placeholder for an unknown field. -/
def dashB : Bytes := [45]

/-!
## Change-log engine (`server/data_sync.py`, `_append_change_events`)

A change log is a list of lines; each line is a byte string without its
trailing newline (every write in the source appends exactly one `\n`, so the
file and the line list are in bijection).
-/

/-- Change event handed to the log writer: `(EVENT, OPRF_HEX, ENC_META)`
with `None` modelled as `none`. -/
structure ChangeEvent where
  ev : Bytes
  hexval : Option Bytes
  encMeta : Option Bytes
  deriving DecidableEq, Repr

/-- Python `(x or "-")`: `None` and the empty string fall back to `-`. -/
def orDash : Option Bytes → Bytes
  | none => dashB
  | some h => if h = [] then dashB else h

/-- Payload hashed for one event: `prev_hash || "|" || EVENT || "|" ||
OPRF_HEX || "|" || ENC_META` (124 is `|`). -/
def chainPayload (prev ev hexPart metaPart : Bytes) : Bytes :=
  prev ++ [124] ++ ev ++ [124] ++ hexPart ++ [124] ++ metaPart

/-- Log line written for one event: the four fields joined by single
spaces, the hash hex-encoded. -/
def eventLine (ev hexPart metaPart : Bytes) (newHash : Bytes) : Bytes :=
  ev ++ [32] ++ hexPart ++ [32] ++ metaPart ++ [32] ++ toHex newHash

/-- Loop body of `_append_change_events`: normalise the event name, skip
events that are neither `ADDED` nor `REMOVED`, hash-chain the rest. -/
def eventLines (sha512 : Bytes → Bytes) : Bytes → List ChangeEvent → List Bytes
  | _, [] => []
  | prev, e :: rest =>
      let ev := upperBytes (stripBytes e.ev)
      if ev = ADDED ∨ ev = REMOVED then
        let hexPart := orDash e.hexval
        let metaPart := orDash e.encMeta
        let newHash := sha512 (chainPayload prev ev hexPart metaPart)
        eventLine ev hexPart metaPart newHash :: eventLines sha512 newHash rest
      else eventLines sha512 prev rest

/-- Chain value after processing a list of events (the final `prev_hash`). -/
def endHash (sha512 : Bytes → Bytes) : Bytes → List ChangeEvent → Bytes
  | prev, [] => prev
  | prev, e :: rest =>
      let ev := upperBytes (stripBytes e.ev)
      if ev = ADDED ∨ ev = REMOVED then
        endHash sha512 (sha512 (chainPayload prev ev (orDash e.hexval) (orDash e.encMeta))) rest
      else endHash sha512 prev rest

/-- Seed recovery of `_append_change_events`: the last non-empty line's final
whitespace token (or, failing a two-token split, the text after its last
comma), hex-decoded when it is 64 or 128 hex characters; 64 zero bytes
otherwise. -/
def lastHashFromLog (lines : List Bytes) : Bytes :=
  match ((lines.map stripBytes).filter (fun l => ¬ l = [])).getLast? with
  | none => zeros64
  | some last =>
      let tokens := splitWs last
      let lastHex :=
        if 2 ≤ tokens.length then tokens.getLastD []
        else match afterLastComma last with
          | some t => stripBytes t
          | none => []
      if lastHex.length = 64 ∨ lastHex.length = 128 then
        match fromHex lastHex with
        | some h => h
        | none => zeros64
      else zeros64

/-- Full append contract of `_append_change_events`: recover the seed from
the existing log, then append the hash-chained lines. -/
def append_change_events (sha512 : Bytes → Bytes) (log : List Bytes)
    (events : List ChangeEvent) : List Bytes :=
  log ++ eventLines sha512 (lastHashFromLog log) events

/-- Log obtained by a sequence of append batches starting from a missing or
empty log. -/
def buildLog (sha512 : Bytes → Bytes) (batches : List (List ChangeEvent)) : List Bytes :=
  batches.foldl (fun log evs => append_change_events sha512 log evs) []

/-- Hash-chain correctness of a log suffix given the incoming chain value:
every line carries the four space-joined fields, and its hash field is the
digest of `prev_hash || "|" || EVENT || "|" || OPRF_HEX || "|" || ENC_META`. -/
def chainOk (sha512 : Bytes → Bytes) : Bytes → List Bytes → Prop
  | _, [] => True
  | prev, line :: rest =>
      ∃ ev hexPart metaPart h,
        line = eventLine ev hexPart metaPart h ∧
        h = sha512 (chainPayload prev ev hexPart metaPart) ∧
        chainOk sha512 h rest

/-!
## Query responder (`server/api_server.py`)
-/

/-- Final whitespace token of a log line, as the sync handler inspects it. -/
def anchorTokenOf (line : Bytes) : Option Bytes := (splitWs (stripBytes line)).getLast?

/-- GET `/sync_data` body and delta flag (`SyncHandler.do_GET`): scan for the
first line whose final token equals the client's hash; on a match return the
following lines flagged delta, otherwise the whole log flagged full.  A
missing (or empty, hence falsy) `hash` parameter is `none`. -/
def sync_data_response (lines : List Bytes) (lastHash : Option Bytes) : List Bytes × Bool :=
  match lastHash with
  | none => (lines, false)
  | some a =>
      match lines.findIdx? (fun line => decide (anchorTokenOf line = some a)) with
      | some i => (lines.drop (i + 1), true)
      | none => (lines, false)

/-- Bytes allowed by the `^[A-Za-z0-9]+$` name check. -/
def isAlnumByte (b : Nat) : Bool :=
  decide ((48 ≤ b ∧ b ≤ 57) ∨ (65 ≤ b ∧ b ≤ 90) ∨ (97 ≤ b ∧ b ≤ 122))

/-- Python `ALNUM_RE.fullmatch`. -/
def isAlnum (s : Bytes) : Bool := !s.isEmpty && s.all isAlnumByte

/-- Status code of POST `/oprf_evaluate` (`SyncHandler.do_POST`), with the
ristretto255 scalar multiplication as a parameter returning `none` exactly
when `crypto_scalarmult_ristretto255` reports failure (the code then raises
`MissingLibraryError`, caught by the generic handler).  JSON framing errors
(411 on a bad `Content-Length`, 400 on undecodable JSON) are upstream of the
modelled fields and omitted. -/
def oprf_evaluate_status (scalarmult : Bytes → Bytes → Option Bytes)
    (dataType : Option Bytes) (blindedHex : Option Bytes)
    (schemaExists keyExists : Bool) (sk : Bytes) : Nat :=
  match dataType with
  | none => 400
  | some name =>
      if ¬ isAlnum name then 400
      else match blindedHex with
        | none => 400
        | some bh =>
            match fromHex bh with
            | none => 400
            | some b =>
                if ¬ b.length = 32 then 400
                else if ¬ schemaExists then 404
                else if ¬ keyExists then 404
                else match scalarmult sk b with
                  | none => 500
                  | some _ => 200

/-!
## Client protocol engine (`client/cli.py`)
-/

/-- Python dictionary lookup over an association list (keys kept unique by
`dictSet`). -/
def dlookup {α : Type} : List (Bytes × α) → Bytes → Option α
  | [], _ => none
  | p :: rest, k => if p.1 = k then some p.2 else dlookup rest k

/-- Python `d[k] = v`: update in place when the key exists, append
otherwise (insertion order preserved, as CPython does). -/
def dictSet {α : Type} (m : List (Bytes × α)) (k : Bytes) (v : α) : List (Bytes × α) :=
  if (dlookup m k).isSome then m.map (fun p => if p.1 = k then (k, v) else p)
  else m ++ [(k, v)]

/-- Python `d.pop(k, None)`. -/
def dictPop {α : Type} (m : List (Bytes × α)) (k : Bytes) : List (Bytes × α) :=
  m.filter (fun p => decide (¬ p.1 = k))

/-- Python `s.split(sep, 1)` for a one-byte separator (the caller checked the
separator occurs). -/
def splitFirstComma (s : Bytes) : Bytes × Bytes :=
  (s.takeWhile (fun b => decide (¬ b = 44)), (s.dropWhile (fun b => decide (¬ b = 44))).tail)

/-- Client replica on disk for one `(server_label, data_name)`: the local
change-log mirror, the persisted `active_index.csv` (both `none` when the
file is missing), and how many residual `delta-*.log` audit files exist
(their contents never influence behaviour). -/
structure ClientFiles where
  changesLog : Option (List Bytes)
  activeIndexFile : Option (List Bytes)
  deltaAuditCount : Nat
  deriving DecidableEq, Repr

/-- Parse of `active_index.csv` (`_load_active_index`): strip each line, skip
blank or comma-less lines, split at the first comma, lowercase the key. -/
def load_active_index_lines (lines : List Bytes) : List (Bytes × Bytes) :=
  lines.foldl (fun m raw =>
    let s := stripBytes raw
    if s = [] ∨ ¬ 44 ∈ s then m
    else
      let kv := splitFirstComma s
      dictSet m (lowerBytes kv.1) kv.2) []

/-- Active set loaded for matching; an absent file yields the empty map. -/
def load_active_index (st : ClientFiles) : List (Bytes × Bytes) :=
  match st.activeIndexFile with
  | none => []
  | some lines => load_active_index_lines lines

/-- Serialisation of the active set back to `active_index.csv`. -/
def write_active_index (m : List (Bytes × Bytes)) : List Bytes :=
  m.map (fun p => p.1 ++ [44] ++ p.2)

/-- Event replay step shared by `cmd_sync_data` and the `cmd_query`
fallback: lines with fewer than four whitespace tokens are skipped; `ADDED`
inserts under the lowercased prf, `REMOVED` deletes it. -/
def applyEventLine (active : List (Bytes × Bytes)) (ln : Bytes) : List (Bytes × Bytes) :=
  let parts := splitWs (stripBytes ln)
  if parts.length < 4 then active
  else
    let event := upperBytes (parts.getD 0 [])
    let key := lowerBytes (parts.getD 1 [])
    let encMeta := parts.getD 2 []
    if event = ADDED then dictSet active key encMeta
    else if event = REMOVED then dictPop active key
    else active

/-- Local-state transition of `cmd_sync_data` once a 200 response with body
`body` (split into lines) and delta flag `deltaMode` arrived; `sentHash`
records whether a `hash` query parameter was sent (it decides the audit-file
prefix).  An empty body returns before touching any file. -/
def cmd_sync_data_apply (st : ClientFiles) (body : List Bytes)
    (deltaMode sentHash : Bool) : ClientFiles :=
  if body = [] then st
  else
    let deltaCount0 := if deltaMode then st.deltaAuditCount else 0
    let deltaCount1 := if sentHash || deltaMode then deltaCount0 + 1 else deltaCount0
    let newLog := if deltaMode then (st.changesLog.getD []) ++ body else body
    let activeStart :=
      if deltaMode ∧ st.activeIndexFile.isSome then load_active_index st else []
    let active := body.foldl applyEventLine activeStart
    { changesLog := some newLog,
      activeIndexFile := some (write_active_index active),
      deltaAuditCount := deltaCount1 }

/-- Active set `cmd_query` matches against: the loaded persisted index when
it is non-empty, else a full replay of the local log; `none` when both the
index is empty and the log file is missing (the query aborts). -/
def query_active_set (st : ClientFiles) : Option (List (Bytes × Bytes)) :=
  let active := load_active_index st
  if active = [] then
    match st.changesLog with
    | none => none
    | some lines => some (lines.foldl applyEventLine [])
  else some active

/-!
## Crypto helpers (`shared/crypto_tools.py`)
-/

/-- HMAC-SHA512 as `hmac.new(key, msg, hashlib.sha512).digest()` computes
it (block size 128). -/
def hmac_sha512 (sha512 : Bytes → Bytes) (key msg : Bytes) : Bytes :=
  let k0 := if 128 < key.length then sha512 key else key
  let kp := k0 ++ List.replicate (128 - k0.length) 0
  sha512 ((kp.map (fun b => b ^^^ 92)) ++ sha512 ((kp.map (fun b => b ^^^ 54)) ++ msg))

/-- Expansion loop of `_hkdf_sha512` (`while len(okm) < length`), fuelled:
each iteration appends one HMAC block, so `length + 1` rounds always
suffice for a digest of at least one byte. -/
def hkdfExpandGo (hm : Bytes → Bytes) (info : Bytes) (outLen : Nat) :
    Nat → Bytes → Bytes → Nat → Bytes
  | 0, okm, _, _ => okm
  | fuel + 1, okm, t, counter =>
      if okm.length < outLen then
        let t2 := hm (t ++ info ++ [counter % 256])
        hkdfExpandGo hm info outLen fuel (okm ++ t2) t2 (counter + 1)
      else okm

/-- `_hkdf_sha512` with its default salt of 64 zero bytes. -/
def hkdf_sha512 (sha512 : Bytes → Bytes) (ikm info : Bytes) (outLen : Nat) : Bytes :=
  let salt := List.replicate 64 0
  let prk := hmac_sha512 sha512 salt ikm
  (hkdfExpandGo (hmac_sha512 sha512 prk) info outLen (outLen + 1) [] [] 1).take outLen

/-- ASCII bytes of `-FINALIZE`. -/
def FINALIZE_TAG : Bytes := [45, 70, 73, 78, 65, 76, 73, 90, 69]

/-- ASCII bytes of `meta|`. -/
def metaInfoTag : Bytes := [109, 101, 116, 97, 124]

/-- `evaluate_oprf_ristretto255_components`: hash-to-group on
`SHA512(data_name || ioc)`, scalar multiplication by the server key, and the
finalize digest `SHA512(data_name || "-FINALIZE" || ioc || Q)`; `none` models
the raised errors (bad argument lengths or scalarmult failure). -/
def evaluate_oprf_ristretto255_components (sha512 : Bytes → Bytes)
    (fromHashFn : Bytes → Bytes) (scalarmult : Bytes → Bytes → Option Bytes)
    (sk ioc dataName : Bytes) : Option (Bytes × Bytes) :=
  if ¬ sk.length = 32 then none
  else if dataName = [] then none
  else
    let wide := sha512 (dataName ++ ioc)
    let p := fromHashFn wide
    match scalarmult sk p with
    | none => none
    | some q => some (sha512 (dataName ++ FINALIZE_TAG ++ ioc ++ q), q)

/-- `evaluate_and_encrypt_metadata`: derive the AEAD key with
`HKDF-SHA512(ikm = prf || Q, info = "meta|" || data_name, L = 32)` and
encrypt the metadata with AAD = ioc.  The 24-byte random nonce is the
`nonce` argument; the AEAD itself is the black-box parameter `aeadEnc`. -/
def evaluate_and_encrypt_metadata (sha512 : Bytes → Bytes) (fromHashFn : Bytes → Bytes)
    (scalarmult : Bytes → Bytes → Option Bytes)
    (aeadEnc : Bytes → Bytes → Bytes → Bytes → Bytes)
    (sk ioc dataName metadata nonce : Bytes) : Option (Bytes × Bytes × Bytes) :=
  match evaluate_oprf_ristretto255_components sha512 fromHashFn scalarmult sk ioc dataName with
  | none => none
  | some pq =>
      let key := hkdf_sha512 sha512 (pq.1 ++ pq.2) (metaInfoTag ++ dataName) 32
      some (pq.1, nonce, aeadEnc key nonce metadata ioc)

/-- `decrypt_metadata_from_prf_and_q`: rederive the key from `(prf, Q)` and
`data_name`, decrypt with AAD = ioc (`none` is the AEAD authentication
failure). -/
def decrypt_metadata_from_prf_and_q (sha512 : Bytes → Bytes)
    (aeadDec : Bytes → Bytes → Bytes → Bytes → Option Bytes)
    (dataName ioc prf q nonce ct : Bytes) : Option Bytes :=
  let key := hkdf_sha512 sha512 (prf ++ q) (metaInfoTag ++ dataName) 32
  aeadDec key nonce ct ioc

/-!
## Dataset reconciler (`server/data_sync.py`, `sync_data` and `rekey_data`)
-/

/-- Server index row: hex strings as the in-memory
`{"oprf": ..., "nonce": ..., "ct": ...}` dictionaries hold them. -/
structure IndexEntry where
  oprf : Bytes
  nonce : Option Bytes
  ct : Option Bytes
  deriving DecidableEq, Repr

/-- Source file parse (`_iter_iocs_from_file`): strip, skip blank and
comma-less lines, split at the first comma, strip both sides, skip empty
IOCs. -/
def parseSourceLines (lines : List Bytes) : List (Bytes × Bytes) :=
  lines.filterMap (fun raw =>
    let line := stripBytes raw
    if line = [] then none
    else if ¬ 44 ∈ line then none
    else
      let kv := splitFirstComma line
      let ioc := stripBytes kv.1
      let meta := stripBytes kv.2
      if ioc = [] then none else some (ioc, meta))

/-- The `current_meta` dictionary: later source lines win. -/
def currentMetaDict (cur : List (Bytes × Bytes)) : List (Bytes × Bytes) :=
  cur.foldl (fun m p => dictSet m p.1 p.2) []

/-- One line of the index file parse of `sync_data`: strip, skip blank or
comma-less lines, split on every comma and strip the parts; field 0 is the
IOC (skipped when empty), 1 the prf hex, 2 and 3 the optional nonce and
ciphertext hex. -/
def parseIndexStep (st : List Bytes × List (Bytes × IndexEntry)) (raw : Bytes) :
    List Bytes × List (Bytes × IndexEntry) :=
  let line := stripBytes raw
  if line = [] ∨ ¬ 44 ∈ line then st
  else
    let parts := (splitOnByte 44 line).map stripBytes
    let ioc := parts.getD 0 []
    if ioc = [] then st
    else (st.1 ++ [ioc], dictSet st.2 ioc ⟨parts.getD 1 [], parts[2]?, parts[3]?⟩)

/-- Index file parse of `sync_data`, returning
`(existing_order, existing_map)`. -/
def parseIndexLines (lines : List Bytes) : List Bytes × List (Bytes × IndexEntry) :=
  lines.foldl parseIndexStep ([], [])

/-- `to_remove`: existing-order IOCs that left the source. -/
def toRemoveL (existingOrder currentIocs : List Bytes) : List Bytes :=
  existingOrder.filter (fun i => decide (¬ i ∈ currentIocs))

/-- `to_add`: source-order IOCs not in the existing index map. -/
def toAddL (currentIocs : List Bytes) (em : List (Bytes × IndexEntry)) : List Bytes :=
  currentIocs.filter (fun i => (dlookup em i).isNone)

/-- Legacy rows lacking encrypted metadata. -/
def needsUpgrade (e : IndexEntry) : Bool := e.nonce.isNone || e.ct.isNone

/-- `to_upgrade`: source-order IOCs whose existing row lacks nonce or ct. -/
def toUpgradeL (currentIocs : List Bytes) (em : List (Bytes × IndexEntry)) : List Bytes :=
  currentIocs.filter (fun i => match dlookup em i with
    | some e => needsUpgrade e
    | none => false)

/-- Row written back for a freshly evaluated IOC: hex encodings of the
`(prf, nonce, ct)` triple computed by `evaluate_and_encrypt_metadata`
(`evalEnc` stands for that call, taking the IOC and
`current_meta.get(ioc, "")`). -/
def evalEntry (evalEnc : Bytes → Bytes → Bytes × Bytes × Bytes)
    (cur : List (Bytes × Bytes)) (ioc : Bytes) : IndexEntry :=
  let r := evalEnc ioc ((dlookup (currentMetaDict cur) ioc).getD [])
  ⟨toHex r.1, some (toHex r.2.1), some (toHex r.2.2)⟩

/-- Evaluation loop over `to_add + to_upgrade`. -/
def evalStep (evalEnc : Bytes → Bytes → Bytes × Bytes × Bytes)
    (cur : List (Bytes × Bytes)) (em : List (Bytes × IndexEntry)) :
    List (Bytes × IndexEntry) :=
  (toAddL (cur.map Prod.fst) em ++ toUpgradeL (cur.map Prod.fst) em).foldl
    (fun m ioc => dictSet m ioc (evalEntry evalEnc cur ioc)) em

/-- Python truthiness of an optional string. -/
def truthy (o : Option Bytes) : Bool :=
  match o with
  | none => false
  | some s => !s.isEmpty

/-- `ADDED` event built from the post-evaluation row (58 is `:`). -/
def addedEventOf (e : IndexEntry) : ChangeEvent :=
  ⟨ADDED, some e.oprf,
    if truthy e.nonce && truthy e.ct
      then some ((e.nonce.getD []) ++ [58] ++ (e.ct.getD [])) else none⟩

/-- `REMOVED` event built from the pre-removal snapshot row. -/
def removedEventOf (e : Option IndexEntry) : ChangeEvent :=
  ⟨REMOVED, e.map (fun en => en.oprf),
    match e with
    | some en =>
        if truthy en.nonce && truthy en.ct
          then some ((en.nonce.getD []) ++ [58] ++ (en.ct.getD [])) else none
    | none => none⟩

/-- In-memory outcome of one `sync_data` reconcile. -/
structure SyncOutcome where
  newOrder : List Bytes
  newMap : List (Bytes × IndexEntry)
  events : List ChangeEvent
  deriving Repr

/-- Core of `sync_data` (steps 5–9 of the spec): diff, evaluate additions
and upgrades, snapshot, remove, rebuild the order, and assemble the change
events (`ADDED` from the post-removal map — additions are never removed in
the same run — then `REMOVED` from the snapshot). -/
def syncCompute (evalEnc : Bytes → Bytes → Bytes × Bytes × Bytes)
    (existingOrder : List Bytes) (existingMap : List (Bytes × IndexEntry))
    (cur : List (Bytes × Bytes)) : SyncOutcome :=
  let currentIocs := cur.map Prod.fst
  let toAdd := toAddL currentIocs existingMap
  let toRemove := toRemoveL existingOrder currentIocs
  let map2 := evalStep evalEnc cur existingMap
  let map3 := toRemove.foldl (fun m ioc => dictPop m ioc) map2
  let newOrder0 := existingOrder.filter (fun i => (dlookup map3 i).isSome)
  let newOrder := currentIocs.foldl (fun acc i => if i ∈ acc then acc else acc ++ [i]) newOrder0
  let events :=
    toAdd.map (fun ioc => addedEventOf ((dlookup map3 ioc).getD ⟨[], none, none⟩)) ++
    toRemove.map (fun ioc => removedEventOf (dlookup map2 ioc))
  ⟨newOrder, map3, events⟩

/-- Row the index dictionary holds for an IOC (`existing_map[ioc]`;
the default is unreachable for the keys the code indexes). -/
def entryOf (m : List (Bytes × IndexEntry)) (ioc : Bytes) : IndexEntry :=
  (dlookup m ioc).getD ⟨[], none, none⟩

/-- Index row written back by `sync_data`: two fields when nonce or ct is
missing, four otherwise. -/
def writeIndexLine (ioc : Bytes) (e : IndexEntry) : Bytes :=
  match e.nonce, e.ct with
  | some n, some c => ioc ++ [44] ++ e.oprf ++ [44] ++ n ++ [44] ++ c
  | _, _ => ioc ++ [44] ++ e.oprf

/-- Index file written back by `sync_data`. -/
def writeIndexLines (order : List Bytes) (m : List (Bytes × IndexEntry)) : List Bytes :=
  order.map (fun ioc => writeIndexLine ioc (entryOf m ioc))

/-- Row as the written file gives it back: the two-field form forgets a
half-present encrypted-metadata pair. -/
def normalizeEntry (e : IndexEntry) : IndexEntry :=
  match e.nonce, e.ct with
  | some n, some c => ⟨e.oprf, some n, some c⟩
  | _, _ => ⟨e.oprf, none, none⟩

/-- Field of an index row that survives the write/parse round trip
unchanged: already stripped, and comma-free. -/
def fieldWf (s : Bytes) : Prop := stripBytes s = s ∧ ¬ 44 ∈ s

/-- IOC usable as an index key: non-empty and round-trip safe. -/
def iocWf (i : Bytes) : Prop := ¬ i = [] ∧ fieldWf i

/-- Row whose three fields are round-trip safe. -/
def entryWf (e : IndexEntry) : Prop :=
  fieldWf e.oprf ∧ (∀ n, e.nonce = some n → fieldWf n) ∧ (∀ c, e.ct = some c → fieldWf c)

/-- One full `sync_data` run over the stored files: returns the rewritten
`index.csv` and the appended `changes.log`. -/
def sync_data_run (sha512 : Bytes → Bytes) (evalEnc : Bytes → Bytes → Bytes × Bytes × Bytes)
    (sourceLines indexLines logLines : List Bytes) : List Bytes × List Bytes :=
  let parsed := parseIndexLines indexLines
  let cur := parseSourceLines sourceLines
  let r := syncCompute evalEnc parsed.1 parsed.2 cur
  (writeIndexLines r.newOrder r.newMap, append_change_events sha512 logLines r.events)

/-- Row of the rekey loop: the IOC with the fresh hex-encoded
`(prf, nonce, ct)`. -/
structure RekeyEntry where
  ioc : Bytes
  hexval : Bytes
  nonceHex : Bytes
  ctHex : Bytes
  deriving DecidableEq, Repr

/-- Entries `rekey_data` computes: one per source record, in source order,
under the fresh key (`evalEnc` again stands for
`evaluate_and_encrypt_metadata`). -/
def rekeyEntries (evalEnc : Bytes → Bytes → Bytes × Bytes × Bytes)
    (cur : List (Bytes × Bytes)) : List RekeyEntry :=
  cur.map (fun p =>
    let r := evalEnc p.1 ((dlookup (currentMetaDict cur) p.1).getD [])
    ⟨p.1, toHex r.1, toHex r.2.1, toHex r.2.2⟩)

/-- Change event a rekey row announces. -/
def rekeyEventOf (e : RekeyEntry) : ChangeEvent :=
  ⟨ADDED, some e.hexval,
    if !e.nonceHex.isEmpty && !e.ctHex.isEmpty
      then some (e.nonceHex ++ [58] ++ e.ctHex) else none⟩

/-- One full `rekey_data` run: overwrite the index with fresh rows, truncate
the change log, and append one `ADDED` event per source record; the
pre-rekey log `oldLog` is discarded by the truncation. -/
def rekey_data_run (sha512 : Bytes → Bytes) (evalEnc : Bytes → Bytes → Bytes × Bytes × Bytes)
    (sourceLines : List Bytes) (oldLog : List Bytes) : List Bytes × List Bytes :=
  let cur := parseSourceLines sourceLines
  let entries := rekeyEntries evalEnc cur
  let indexLines := entries.map (fun e =>
    e.ioc ++ [44] ++ e.hexval ++ [44] ++ e.nonceHex ++ [44] ++ e.ctHex)
  let truncated : List Bytes := (fun _ => []) oldLog
  (indexLines, append_change_events sha512 truncated (entries.map rekeyEventOf))

/-!
## Tokenisation lemmas
-/

theorem splitWsAux_append_space (v : Bytes) :
    ∀ (u acc : Bytes), splitWsAux (u ++ 32 :: v) acc = splitWsAux u acc ++ splitWsAux v [] := by
  intro u
  have h32 : isSpaceByte 32 = true := rfl
  induction u with
  | nil =>
      intro acc
      by_cases hacc : acc = [] <;> simp [splitWsAux, hacc, h32]
  | cons b u ih =>
      intro acc
      by_cases hb : isSpaceByte b
      · by_cases hacc : acc = [] <;> simp [splitWsAux, hb, hacc, ih]
      · simp [splitWsAux, hb, ih]

theorem splitWsAux_all_nonws :
    ∀ (v : Bytes), (∀ b ∈ v, isSpaceByte b = false) →
      ∀ acc, splitWsAux v acc = if acc = [] ∧ v = [] then [] else [acc.reverse ++ v] := by
  intro v
  induction v with
  | nil =>
      intro _ acc
      by_cases hacc : acc = [] <;> simp [splitWsAux, hacc]
  | cons b v ih =>
      intro hv acc
      have hb : isSpaceByte b = false := hv b (by simp)
      have := ih (fun c hc => hv c (by simp [hc])) (b :: acc)
      simp only [splitWsAux, hb]
      rw [if_neg (by simp [hb])]
      rw [this]
      simp

theorem splitWs_append_space (u v : Bytes) :
    splitWs (u ++ 32 :: v) = splitWs u ++ splitWs v := by
  simp [splitWs, splitWsAux_append_space]

theorem splitWs_all_nonws (v : Bytes) (hne : v ≠ [])
    (hv : ∀ b ∈ v, isSpaceByte b = false) : splitWs v = [v] := by
  simp [splitWs, splitWsAux_all_nonws v hv, hne]

theorem stripBytes_eq_self (s : Bytes)
    (hhead : ∀ a, s.head? = some a → isSpaceByte a = false)
    (hlast : ∀ a, s.getLast? = some a → isSpaceByte a = false) :
    stripBytes s = s := by
  have hdrop : ∀ (l : Bytes), (∀ a, l.head? = some a → isSpaceByte a = false) →
      l.dropWhile isSpaceByte = l := by
    intro l hl
    cases l with
    | nil => rfl
    | cons a l => simp [List.dropWhile, hl a rfl]
  unfold stripBytes
  rw [hdrop s hhead]
  rw [hdrop s.reverse (by
    intro a ha
    exact hlast a (by rwa [← List.head?_reverse]))]
  exact List.reverse_reverse s

/-!
## Hex codec lemmas
-/

theorem toHex_cons (b : Nat) (bs : Bytes) :
    toHex (b :: bs) = hexDigitChar (b / 16 % 16) :: hexDigitChar (b % 16) :: toHex bs := rfl

theorem toHex_length (bs : Bytes) : (toHex bs).length = 2 * bs.length := by
  induction bs with
  | nil => rfl
  | cons b bs ih => simp [toHex] at ih ⊢; omega

theorem toHex_mem_range (bs : Bytes) :
    ∀ c ∈ toHex bs, (48 ≤ c ∧ c ≤ 57) ∨ (97 ≤ c ∧ c ≤ 102) := by
  induction bs with
  | nil => simp [toHex]
  | cons b bs ih =>
      intro c hc
      simp only [toHex, List.flatMap_cons, List.mem_append] at hc
      rcases hc with hc | hc
      · have h16a : b / 16 % 16 < 16 := Nat.mod_lt _ (by norm_num)
        have h16b : b % 16 < 16 := Nat.mod_lt _ (by norm_num)
        simp only [List.mem_cons, List.mem_singleton] at hc
        rcases hc with rfl | rfl | h
        · unfold hexDigitChar; split <;> omega
        · unfold hexDigitChar; split <;> omega
        · cases h
      · exact ih c hc

theorem toHex_nonws (bs : Bytes) : ∀ c ∈ toHex bs, isSpaceByte c = false := by
  intro c hc
  rcases toHex_mem_range bs c hc with h | h <;>
    simp only [isSpaceByte, Bool.or_eq_false_iff, beq_eq_false_iff_ne, ne_eq] <;>
    omega

theorem toHex_ne_nil (bs : Bytes) (h : bs ≠ []) : toHex bs ≠ [] := by
  cases bs with
  | nil => exact absurd rfl h
  | cons b bs => simp [toHex]

theorem hexVal_hexDigitChar (n : Nat) (h : n < 16) : hexVal (hexDigitChar n) = some n := by
  unfold hexVal hexDigitChar
  by_cases h10 : n < 10
  · rw [if_pos h10, if_pos (by omega)]
    congr 1
    omega
  · rw [if_neg h10, if_neg (by omega), if_pos (by omega)]
    congr 1
    omega

theorem fromHex_toHex (bs : Bytes) (hb : ∀ b ∈ bs, b < 256) :
    fromHex (toHex bs) = some bs := by
  induction bs with
  | nil => rfl
  | cons b bs ih =>
      have hb0 : b < 256 := hb b (by simp)
      have h1 : b / 16 % 16 < 16 := Nat.mod_lt _ (by norm_num)
      have h2 : b % 16 < 16 := Nat.mod_lt _ (by norm_num)
      rw [toHex_cons]
      simp only [fromHex]
      rw [hexVal_hexDigitChar _ h1, hexVal_hexDigitChar _ h2, ih (fun c hc => hb c (by simp [hc]))]
      simp only [Option.some.injEq, List.cons.injEq, and_true]
      omega

/-!
## Structure of written log lines
-/

theorem eventLine_ne_nil (ev hx mt h : Bytes) (hev : ev = ADDED ∨ ev = REMOVED) :
    eventLine ev hx mt h ≠ [] := by
  rcases hev with rfl | rfl <;> simp [eventLine, ADDED, REMOVED]

theorem eventLine_head (ev hx mt h : Bytes) (hev : ev = ADDED ∨ ev = REMOVED) :
    ∀ a, (eventLine ev hx mt h).head? = some a → isSpaceByte a = false := by
  rcases hev with rfl | rfl <;>
    · intro a ha
      simp [eventLine, ADDED, REMOVED] at ha
      subst ha
      decide

theorem eventLine_getLast (ev hx mt h : Bytes) (hne : toHex h ≠ []) :
    (eventLine ev hx mt h).getLast? = (toHex h).getLast? := by
  unfold eventLine
  rw [show ev ++ [32] ++ hx ++ [32] ++ mt ++ [32] ++ toHex h
      = (ev ++ [32] ++ hx ++ [32] ++ mt ++ [32]) ++ toHex h by simp]
  exact List.getLast?_append_of_ne_nil _ hne

theorem stripBytes_eventLine (ev hx mt h : Bytes) (hev : ev = ADDED ∨ ev = REMOVED)
    (hne : h ≠ []) : stripBytes (eventLine ev hx mt h) = eventLine ev hx mt h := by
  apply stripBytes_eq_self
  · exact eventLine_head ev hx mt h hev
  · intro a ha
    rw [eventLine_getLast ev hx mt h (toHex_ne_nil h hne)] at ha
    have hmem : a ∈ toHex h := by
      have := List.mem_of_mem_getLast? (l := toHex h) (a := a)
      simp_all
    exact toHex_nonws h a hmem

theorem splitWs_eventLine (ev hx mt h : Bytes) :
    splitWs (eventLine ev hx mt h)
      = splitWs ev ++ (splitWs hx ++ (splitWs mt ++ splitWs (toHex h))) := by
  unfold eventLine
  rw [show ev ++ [32] ++ hx ++ [32] ++ mt ++ [32] ++ toHex h
      = ev ++ 32 :: (hx ++ 32 :: (mt ++ 32 :: toHex h)) by simp]
  rw [splitWs_append_space, splitWs_append_space, splitWs_append_space]

theorem splitWs_toHex (h : Bytes) (hne : h ≠ []) : splitWs (toHex h) = [toHex h] :=
  splitWs_all_nonws (toHex h) (toHex_ne_nil h hne) (toHex_nonws h)

/-- Appending a well-formed event line makes the log reader recover exactly
its hash — the core of the chain continuation proof. -/
theorem lastHashFromLog_append_eventLine (M : List Bytes) (ev hx mt h : Bytes)
    (hev : ev = ADDED ∨ ev = REMOVED) (hlen : h.length = 64) (hb : ∀ b ∈ h, b < 256) :
    lastHashFromLog (M ++ [eventLine ev hx mt h]) = h := by
  have hne : h ≠ [] := by intro e; subst e; simp at hlen
  have hstrip := stripBytes_eventLine ev hx mt h hev hne
  have hlinene := eventLine_ne_nil ev hx mt h hev
  have hevsplit : splitWs ev = [ev] := by
    rcases hev with rfl | rfl <;> decide
  have htok : splitWs (eventLine ev hx mt h)
      = (splitWs ev ++ (splitWs hx ++ splitWs mt)) ++ [toHex h] := by
    rw [splitWs_eventLine, splitWs_toHex h hne]
    simp
  unfold lastHashFromLog
  rw [List.map_append, List.filter_append]
  simp only [List.map_cons, List.map_nil, hstrip]
  rw [show List.filter (fun l => decide (¬ l = [])) [eventLine ev hx mt h]
      = [eventLine ev hx mt h] by simp [List.filter, hlinene]]
  rw [List.getLast?_concat]
  simp only
  rw [htok]
  have hlast : ((splitWs ev ++ (splitWs hx ++ splitWs mt)) ++ [toHex h]).getLastD [] = toHex h := by
    rw [List.getLastD_eq_getLast?, List.getLast?_concat]
    rfl
  have hlen2 : 2 ≤ ((splitWs ev ++ (splitWs hx ++ splitWs mt)) ++ [toHex h]).length := by
    simp [hevsplit]
    omega
  rw [if_pos hlen2, hlast, if_pos (by right; rw [toHex_length, hlen])]
  rw [fromHex_toHex h hb]

/-!
## Chain lemmas for the append contract
-/

theorem eventLines_append (sha512 : Bytes → Bytes) :
    ∀ (xs ys : List ChangeEvent) (prev : Bytes),
      eventLines sha512 prev (xs ++ ys)
        = eventLines sha512 prev xs ++ eventLines sha512 (endHash sha512 prev xs) ys := by
  intro xs
  induction xs with
  | nil => intro ys prev; simp [eventLines, endHash]
  | cons e xs ih =>
      intro ys prev
      by_cases hev : upperBytes (stripBytes e.ev) = ADDED ∨ upperBytes (stripBytes e.ev) = REMOVED <;>
        simp [eventLines, endHash, hev, ih]

theorem endHash_append (sha512 : Bytes → Bytes) :
    ∀ (xs ys : List ChangeEvent) (prev : Bytes),
      endHash sha512 prev (xs ++ ys) = endHash sha512 (endHash sha512 prev xs) ys := by
  intro xs
  induction xs with
  | nil => intro ys prev; simp [endHash]
  | cons e xs ih =>
      intro ys prev
      by_cases hev : upperBytes (stripBytes e.ev) = ADDED ∨ upperBytes (stripBytes e.ev) = REMOVED <;>
        simp [endHash, hev, ih]

theorem chainOk_eventLines (sha512 : Bytes → Bytes) :
    ∀ (evs : List ChangeEvent) (prev : Bytes), chainOk sha512 prev (eventLines sha512 prev evs) := by
  intro evs
  induction evs with
  | nil => intro prev; simp [eventLines, chainOk]
  | cons e evs ih =>
      intro prev
      by_cases hev : upperBytes (stripBytes e.ev) = ADDED ∨ upperBytes (stripBytes e.ev) = REMOVED
      · simp only [eventLines, hev, if_pos]
        exact ⟨_, _, _, _, rfl, rfl, ih _⟩
      · simp only [eventLines, hev, if_neg, ite_false]
        exact ih prev

theorem lastHash_eventLines (sha512 : Bytes → Bytes)
    (hlen : ∀ x, (sha512 x).length = 64) (hb : ∀ x, ∀ b ∈ sha512 x, b < 256)
    (evs : List ChangeEvent) :
    lastHashFromLog (eventLines sha512 zeros64 evs) = endHash sha512 zeros64 evs := by
  induction evs using List.reverseRecOn with
  | nil => rfl
  | append_singleton xs e ih =>
      rw [eventLines_append, endHash_append]
      by_cases hev : upperBytes (stripBytes e.ev) = ADDED ∨ upperBytes (stripBytes e.ev) = REMOVED
      · rw [show eventLines sha512 (endHash sha512 zeros64 xs) [e]
            = [eventLine (upperBytes (stripBytes e.ev)) (orDash e.hexval) (orDash e.encMeta)
                (sha512 (chainPayload (endHash sha512 zeros64 xs) (upperBytes (stripBytes e.ev))
                  (orDash e.hexval) (orDash e.encMeta)))] by simp [eventLines, hev]]
        rw [lastHashFromLog_append_eventLine _ _ _ _ _ hev (hlen _) (hb _)]
        simp [endHash, hev]
      · simp [eventLines, endHash, hev, ih]

theorem buildLog_eq (sha512 : Bytes → Bytes)
    (hlen : ∀ x, (sha512 x).length = 64) (hb : ∀ x, ∀ b ∈ sha512 x, b < 256)
    (batches : List (List ChangeEvent)) :
    buildLog sha512 batches = eventLines sha512 zeros64 batches.flatten := by
  suffices h : ∀ (bs : List (List ChangeEvent)) (flat : List ChangeEvent),
      List.foldl (fun log evs => append_change_events sha512 log evs)
        (eventLines sha512 zeros64 flat) bs = eventLines sha512 zeros64 (flat ++ bs.flatten) by
    have hz := h batches []
    simpa [buildLog, eventLines] using hz
  intro bs
  induction bs with
  | nil => intro flat; simp
  | cons b bs ih =>
      intro flat
      rw [List.foldl_cons]
      rw [show append_change_events sha512 (eventLines sha512 zeros64 flat) b
          = eventLines sha512 zeros64 (flat ++ b) by
        unfold append_change_events
        rw [lastHash_eventLines sha512 hlen hb, ← eventLines_append]]
      rw [ih (flat ++ b)]
      simp

/-!
## Claim C1 — hash-chain integrity of the written log
-/

/-- C1: for every sequence of event batches appended to a dataset's change
log (a log built solely by `_append_change_events`), each written line's
HASH field is `SHA512(prev_hash || "|" || EVENT || "|" || OPRF_HEX || "|" ||
ENC_META)`, where `prev_hash` is 64 zero bytes for the first line and the
previous line's HASH otherwise — `chainOk` threads exactly this
obligation down the log, seeded with `zeros64`. -/
theorem hash_chain_integrity (sha512 : Bytes → Bytes)
    (hlen : ∀ x, (sha512 x).length = 64)
    (hb : ∀ x, ∀ b ∈ sha512 x, b < 256)
    (batches : List (List ChangeEvent)) :
    chainOk sha512 zeros64 (buildLog sha512 batches) := by
  rw [buildLog_eq sha512 hlen hb]
  exact chainOk_eventLines sha512 _ zeros64

/-- Witness for C1 at a concrete digest function and a concrete two-batch
append sequence. -/
theorem hash_chain_integrity_witness :
    (∀ x : Bytes, ((fun _ => zeros64) x).length = 64) ∧
    chainOk (fun _ => zeros64) zeros64
      (buildLog (fun _ => zeros64)
        [[⟨ADDED, some [97], some [98]⟩], [⟨REMOVED, some [97], none⟩]]) :=
  ⟨fun _ => by simp [zeros64],
   hash_chain_integrity (fun _ => zeros64) (fun _ => by simp [zeros64])
     (fun _ b hb => by
        simp only [zeros64, List.mem_replicate] at hb
        omega) _⟩

/-!
## Claim C2 — anchored tail retrieval
-/

theorem findIdx?_first {α : Type} (p : α → Bool) :
    ∀ (l : List α) (j : Nat) (hj : j < l.length),
      p (l.get ⟨j, hj⟩) = true →
      (∀ k (hk : k < j), p (l.get ⟨k, hk.trans hj⟩) = false) →
      l.findIdx? p = some j := by
  intro l
  induction l with
  | nil => intro j hj; exact absurd hj (by simp)
  | cons a l ih =>
      intro j hj hp hfirst
      cases j with
      | zero =>
          simp only [List.get] at hp
          simp [List.findIdx?_cons, hp]
      | succ j =>
          have ha : p a = false := hfirst 0 (Nat.succ_pos j)
          have hj2 : j < l.length := Nat.lt_of_succ_lt_succ hj
          have := ih j hj2 hp (fun k hk => hfirst (k + 1) (Nat.succ_lt_succ hk))
          simp [List.findIdx?_cons, ha, this]

/-- C2: the sync endpoint's response for a stored log and a client anchor.
With no anchor the entire log is returned flagged full; when no line's final
whitespace token equals the anchor the entire log is returned flagged full;
when line `j` is the first whose final token equals the anchor, exactly the
lines after `j` are returned flagged delta — an empty body when `j` is the
last line. -/
theorem sync_tail_retrieval (lines : List Bytes) (a : Bytes) :
    sync_data_response lines none = (lines, false) ∧
    ((∀ l ∈ lines, ¬ anchorTokenOf l = some a) →
      sync_data_response lines (some a) = (lines, false)) ∧
    (∀ j, (hj : j < lines.length) →
      anchorTokenOf (lines.get ⟨j, hj⟩) = some a →
      (∀ k, (hk : k < j) → ¬ anchorTokenOf (lines.get ⟨k, hk.trans hj⟩) = some a) →
      sync_data_response lines (some a) = (lines.drop (j + 1), true) ∧
        (j + 1 = lines.length → sync_data_response lines (some a) = ([], true))) := by
  refine ⟨rfl, ?_, ?_⟩
  · intro hnone
    have : lines.findIdx? (fun line => decide (anchorTokenOf line = some a)) = none := by
      rw [List.findIdx?_eq_none_iff]
      intro x hx
      simp [hnone x hx]
    simp [sync_data_response, this]
  · intro j hj hja hfirst
    have hfind : lines.findIdx? (fun line => decide (anchorTokenOf line = some a)) = some j := by
      apply findIdx?_first _ lines j hj (by simpa using hja)
      intro k hk
      simpa using hfirst k hk
    constructor
    · simp [sync_data_response, hfind]
    · intro hlast
      simp [sync_data_response, hfind, hlast, List.drop_length]

/-- Witness for C2: a two-line log with the anchor on the first line yields
the one-line delta tail; the same anchor absent yields the full log; no
anchor yields the full log. -/
theorem sync_tail_retrieval_witness :
    sync_data_response [[65, 32, 98], [67, 32, 100]] (some [98]) = ([[67, 32, 100]], true) ∧
    sync_data_response [[65, 32, 98]] (some [99]) = ([[[65, 32, 98]].getD 0 []], false) ∧
    sync_data_response [[65, 32, 98]] none = ([[65, 32, 98]], false) := by
  refine ⟨?_, ?_, (sync_tail_retrieval [[65, 32, 98]] [99]).1⟩
  · exact ((sync_tail_retrieval [[65, 32, 98], [67, 32, 100]] [98]).2.2 0 (by decide)
      (by decide) (fun k hk => absurd hk (Nat.not_lt_zero k))).1
  · have := (sync_tail_retrieval [[65, 32, 98]] [99]).2.1 (by decide)
    simpa using this

/-!
## Claim C3 — full responses and local-state reset
-/

/-- Example local log line `ADDED aa bb h1`. -/
def exLine1 : Bytes := [65, 68, 68, 69, 68, 32, 97, 97, 32, 98, 98, 32, 104, 49]

/-- Example delta line `ADDED cc dd h2`. -/
def exLine2 : Bytes := [65, 68, 68, 69, 68, 32, 99, 99, 32, 100, 100, 32, 104, 50]

/-- Counterexample to C3 as stated: on a full-flagged response with an empty
body the client returns before touching any file, so a populated local
state — log line, persisted active-set index, one residual delta audit
file — survives unchanged instead of being reset. -/
theorem full_empty_body_no_reset :
    cmd_sync_data_apply ⟨some [exLine1], some [[97, 97, 44, 98, 98]], 1⟩ [] false false
      = ⟨some [exLine1], some [[97, 97, 44, 98, 98]], 1⟩ ∧
    ¬ (cmd_sync_data_apply ⟨some [exLine1], some [[97, 97, 44, 98, 98]], 1⟩ [] false false).activeIndexFile
        = none ∧
    ¬ (cmd_sync_data_apply ⟨some [exLine1], some [[97, 97, 44, 98, 98]], 1⟩ [] false false).deltaAuditCount
        = 0 := by
  exact ⟨rfl, by decide, by decide⟩

/-- C3 amended: a full-flagged response with a non-empty body replaces the
local log with the body, discards the delta audit files (writing one fresh
`delta-` audit exactly when an anchor was sent), and replaces the persisted
active set with a replay of the body alone; a full-flagged response with an
empty body leaves all local state untouched. -/
theorem full_response_reset (st : ClientFiles) (body : List Bytes) (sentHash : Bool)
    (hne : body ≠ []) :
    cmd_sync_data_apply st body false sentHash =
      { changesLog := some body,
        activeIndexFile := some (write_active_index (body.foldl applyEventLine [])),
        deltaAuditCount := if sentHash then 1 else 0 } ∧
    cmd_sync_data_apply st [] false sentHash = st := by
  constructor
  · simp [cmd_sync_data_apply, hne]
  · rfl

/-- Witness for the amended C3 at a populated concrete state. -/
theorem full_response_reset_witness :
    cmd_sync_data_apply ⟨some [exLine1], some [[97, 97, 44, 98, 98]], 3⟩ [exLine2] false true
      = { changesLog := some [exLine2],
          activeIndexFile := some (write_active_index ([exLine2].foldl applyEventLine [])),
          deltaAuditCount := 1 } :=
  (full_response_reset ⟨some [exLine1], some [[97, 97, 44, 98, 98]], 3⟩ [exLine2] true
    (by decide)).1

/-!
## Claim C9 — active set used by a query
-/

/-- Counterexample to C9 as stated: start with a missing active-set index
and a one-line local log, let the query's sync apply a one-line delta.
The sync seeds its replay from the empty map, so the persisted index holds
only the delta's record, the query matches against that set, and it differs
from the full replay of the (now two-line) local log. -/
theorem query_delta_no_index_counterexample :
    query_active_set (cmd_sync_data_apply ⟨some [exLine1], none, 0⟩ [exLine2] true true)
      = some [([99, 99], [100, 100])] ∧
    (cmd_sync_data_apply ⟨some [exLine1], none, 0⟩ [exLine2] true true).changesLog
      = some [exLine1, exLine2] ∧
    [exLine1, exLine2].foldl applyEventLine []
      = [([97, 97], [98, 98]), ([99, 99], [100, 100])] ∧
    ¬ query_active_set (cmd_sync_data_apply ⟨some [exLine1], none, 0⟩ [exLine2] true true)
      = some ([exLine1, exLine2].foldl applyEventLine []) := by
  exact ⟨by decide, by decide, by decide, by decide⟩

/-- C9 amended: when the loaded active set is empty (index file missing or
empty) and the local log exists, the query matches against the full replay
of the local log; but a sync that applies a non-empty delta while no index
file is persisted writes an active set replayed from the delta lines alone,
which is what a following query then matches against. -/
theorem query_active_fallback (st st2 : ClientFiles) (lines body : List Bytes) (sentHash : Bool)
    (hempty : load_active_index st = []) (hlog : st.changesLog = some lines)
    (hidx : st2.activeIndexFile = none) (hbody : body ≠ []) :
    query_active_set st = some (lines.foldl applyEventLine []) ∧
    (cmd_sync_data_apply st2 body true sentHash).activeIndexFile
      = some (write_active_index (body.foldl applyEventLine [])) := by
  constructor
  · simp [query_active_set, hempty, hlog]
  · simp [cmd_sync_data_apply, hbody, hidx]

/-- Witness for the amended C9: a missing index file with a one-line log
falls back to the full replay, and a delta sync over a missing index
persists the delta-only replay. -/
theorem query_active_fallback_witness :
    query_active_set ⟨some [exLine1], none, 0⟩ = some ([exLine1].foldl applyEventLine []) ∧
    (cmd_sync_data_apply ⟨some [exLine1], none, 0⟩ [exLine2] true true).activeIndexFile
      = some (write_active_index ([exLine2].foldl applyEventLine [])) :=
  query_active_fallback ⟨some [exLine1], none, 0⟩ ⟨some [exLine1], none, 0⟩ [exLine1] [exLine2]
    true (by decide) rfl rfl (by decide)

/-!
## Claim C4 — scalarmult rejection surfaces as HTTP 500
-/

/-- C4 (behaviour the code actually has, contradicting the specified
`InvalidPoint` → 4xx propagation): when the request is well-formed — an
alphanumeric dataset name, hex decoding to exactly 32 bytes, schema and key
present — and the scalar multiplication primitive rejects the input,
`do_POST` answers 500 (the raised error is `MissingLibraryError`, caught by
the generic internal-failure handler), not a 4xx status. -/
theorem evaluate_scalarmult_rejection_500 (scalarmult : Bytes → Bytes → Option Bytes)
    (sk name bh b : Bytes) (hname : isAlnum name = true) (hhex : fromHex bh = some b)
    (hlen : b.length = 32) (hrej : scalarmult sk b = none) :
    oprf_evaluate_status scalarmult (some name) (some bh) true true sk = 500 ∧
    ¬ (400 ≤ oprf_evaluate_status scalarmult (some name) (some bh) true true sk ∧
        oprf_evaluate_status scalarmult (some name) (some bh) true true sk < 500) := by
  have h : oprf_evaluate_status scalarmult (some name) (some bh) true true sk = 500 := by
    simp [oprf_evaluate_status, hname, hhex, hlen, hrej]
  exact ⟨h, by rw [h]; omega⟩

/-- Witness for C4's behaviour theorem: the all-zero 32-byte point (an input
libsodium's `crypto_scalarmult_ristretto255` rejects) on dataset `a`. -/
theorem evaluate_scalarmult_rejection_500_witness :
    oprf_evaluate_status (fun _ _ => none) (some [97]) (some (toHex (List.replicate 32 0)))
      true true [] = 500 :=
  (evaluate_scalarmult_rejection_500 (fun _ _ => none) [] [97] (toHex (List.replicate 32 0))
    (List.replicate 32 0) (by decide)
    (fromHex_toHex _ (by intro c hc; simp [List.mem_replicate] at hc; omega))
    (by simp) rfl).1

/-!
## Claim C5 — metadata encryption round trip
-/

/-- C5: for any IOC, metadata, server key and dataset name, encrypting with
the key `HKDF-SHA512(ikm = prf || Q, salt = 64 zero bytes, info = "meta|" ||
data_name, L = 32)` and AAD = ioc, then decrypting with the key rederived
from the same `(prf, Q, data_name)` and AAD = ioc, returns the original
metadata — given the AEAD's round-trip contract and a successful scalar
multiplication producing `Q`. -/
theorem metadata_roundtrip (sha512 fromHashFn : Bytes → Bytes)
    (scalarmult : Bytes → Bytes → Option Bytes)
    (aeadEnc : Bytes → Bytes → Bytes → Bytes → Bytes)
    (aeadDec : Bytes → Bytes → Bytes → Bytes → Option Bytes)
    (haead : ∀ k n m ad, aeadDec k n (aeadEnc k n m ad) ad = some m)
    (sk ioc dataName metadata nonce q : Bytes)
    (hsk : sk.length = 32) (hdn : ¬ dataName = [])
    (hq : scalarmult sk (fromHashFn (sha512 (dataName ++ ioc))) = some q) :
    ∃ prf ct,
      evaluate_and_encrypt_metadata sha512 fromHashFn scalarmult aeadEnc
          sk ioc dataName metadata nonce = some (prf, nonce, ct) ∧
      prf = sha512 (dataName ++ FINALIZE_TAG ++ ioc ++ q) ∧
      ct = aeadEnc (hkdf_sha512 sha512 (prf ++ q) (metaInfoTag ++ dataName) 32)
             nonce metadata ioc ∧
      decrypt_metadata_from_prf_and_q sha512 aeadDec dataName ioc prf q nonce ct
        = some metadata := by
  refine ⟨sha512 (dataName ++ FINALIZE_TAG ++ ioc ++ q), _, ?_, rfl, rfl, ?_⟩
  · simp [evaluate_and_encrypt_metadata, evaluate_oprf_ristretto255_components, hsk, hdn, hq]
  · simp [decrypt_metadata_from_prf_and_q, haead]

/-- Witness for C5 at concrete primitive instances satisfying the AEAD
round-trip contract. -/
theorem metadata_roundtrip_witness :
    ∃ prf ct,
      evaluate_and_encrypt_metadata (fun x => x) (fun x => x) (fun _ p => some p)
          (fun _ _ m _ => m) (List.replicate 32 0) [105] [100] [109] [110]
        = some (prf, [110], ct) ∧
      prf = (fun x => x) ([100] ++ FINALIZE_TAG ++ [105] ++
              (fun x => x) ([100] ++ [105])) ∧
      ct = (fun _ _ m _ => m) (hkdf_sha512 (fun x => x)
              (prf ++ (fun x => x) ([100] ++ [105])) (metaInfoTag ++ [100]) 32)
             [110] [109] [105] ∧
      decrypt_metadata_from_prf_and_q (fun x => x) (fun _ _ c _ => some c)
          [100] [105] prf ((fun x => x) ([100] ++ [105])) [110] ct = some [109] :=
  metadata_roundtrip (fun x => x) (fun x => x) (fun _ p => some p) (fun _ _ m _ => m)
    (fun _ _ c _ => some c) (fun _ _ _ _ => rfl) (List.replicate 32 0) [105] [100] [109] [110]
    ((fun x => x) ([100] ++ [105])) (by simp) (by decide) rfl

/-!
## Claim C10 — well-formedness of written lines
-/

theorem splitWs_event_name (ev : Bytes) (hev : ev = ADDED ∨ ev = REMOVED) :
    splitWs ev = [ev] := by
  rcases hev with rfl | rfl <;> decide

theorem orDash_facts (o : Option Bytes)
    (h : ∀ s, o = some s → ∀ b ∈ s, isSpaceByte b = false) :
    ¬ orDash o = [] ∧ ∀ b ∈ orDash o, isSpaceByte b = false := by
  cases o with
  | none => exact ⟨by decide, by decide⟩
  | some s =>
      by_cases hs : s = []
      · subst hs
        exact ⟨by decide, by decide⟩
      · simp only [orDash, hs, if_neg]
        exact ⟨by simpa using hs, h s rfl⟩

/-- C10: every line the log writer emits consists of exactly the four
single-space-joined tokens `EVENT OPRF_HEX ENC_META HASH_HEX`, with the
event `ADDED` or `REMOVED` and the hash 128 hex characters; consequently the
client replay's guard `len(parts) < 4` never skips a server-written line
(token fields carry no whitespace, as the system's hex and `nonce:ct`
values never do). -/
theorem written_lines_four_tokens (sha512 : Bytes → Bytes)
    (hlen : ∀ x, (sha512 x).length = 64)
    (evs : List ChangeEvent) (prev : Bytes)
    (hwf : ∀ e ∈ evs, (∀ s, e.hexval = some s → ∀ b ∈ s, isSpaceByte b = false) ∧
                      (∀ s, e.encMeta = some s → ∀ b ∈ s, isSpaceByte b = false)) :
    ∀ line ∈ eventLines sha512 prev evs,
      ∃ ev hx mt h,
        splitWs (stripBytes line) = [ev, hx, mt, toHex h] ∧
        (ev = ADDED ∨ ev = REMOVED) ∧
        (toHex h).length = 128 ∧
        ¬ (splitWs (stripBytes line)).length < 4 := by
  induction evs generalizing prev with
  | nil => intro line hl; simp [eventLines] at hl
  | cons e evs ih =>
      intro line hl
      by_cases hev : upperBytes (stripBytes e.ev) = ADDED ∨ upperBytes (stripBytes e.ev) = REMOVED
      · rw [show eventLines sha512 prev (e :: evs)
            = eventLine (upperBytes (stripBytes e.ev)) (orDash e.hexval) (orDash e.encMeta)
                (sha512 (chainPayload prev (upperBytes (stripBytes e.ev)) (orDash e.hexval)
                  (orDash e.encMeta)))
              :: eventLines sha512
                (sha512 (chainPayload prev (upperBytes (stripBytes e.ev)) (orDash e.hexval)
                  (orDash e.encMeta))) evs by simp [eventLines, hev]] at hl
        rcases List.mem_cons.mp hl with rfl | hl2
        · obtain ⟨hxne, hxws⟩ := orDash_facts e.hexval (hwf e (by simp)).1
          obtain ⟨mtne, mtws⟩ := orDash_facts e.encMeta (hwf e (by simp)).2
          have hne64 : sha512 (chainPayload prev (upperBytes (stripBytes e.ev))
              (orDash e.hexval) (orDash e.encMeta)) ≠ [] := by
            intro hc
            have := hlen (chainPayload prev (upperBytes (stripBytes e.ev))
              (orDash e.hexval) (orDash e.encMeta))
            rw [hc] at this
            simp at this
          refine ⟨upperBytes (stripBytes e.ev), orDash e.hexval, orDash e.encMeta,
            sha512 (chainPayload prev (upperBytes (stripBytes e.ev)) (orDash e.hexval)
              (orDash e.encMeta)),
            ?_, hev, by rw [toHex_length, hlen], ?_⟩
          · rw [stripBytes_eventLine _ _ _ _ hev hne64, splitWs_eventLine,
              splitWs_event_name _ hev, splitWs_all_nonws _ hxne hxws,
              splitWs_all_nonws _ mtne mtws, splitWs_toHex _ hne64]
            rfl
          · rw [stripBytes_eventLine _ _ _ _ hev hne64, splitWs_eventLine,
              splitWs_event_name _ hev, splitWs_all_nonws _ hxne hxws,
              splitWs_all_nonws _ mtne mtws, splitWs_toHex _ hne64]
            simp
        · exact ih _ (fun e2 he2 => hwf e2 (by simp [he2])) line hl2
      · rw [show eventLines sha512 prev (e :: evs) = eventLines sha512 prev evs by
            simp [eventLines, hev]] at hl
        exact ih prev (fun e2 he2 => hwf e2 (by simp [he2])) line hl

/-- Witness for C10: the line written for `ADDED` with oprf `a` and no
encrypted metadata, under a fixed digest function. -/
theorem written_lines_four_tokens_witness :
    ∃ ev hx mt h,
      splitWs (stripBytes (eventLine ADDED [97] dashB zeros64)) = [ev, hx, mt, toHex h] ∧
      (ev = ADDED ∨ ev = REMOVED) ∧
      (toHex h).length = 128 ∧
      ¬ (splitWs (stripBytes (eventLine ADDED [97] dashB zeros64))).length < 4 :=
  written_lines_four_tokens (fun _ => zeros64) (fun _ => by simp [zeros64])
    [⟨ADDED, some [97], none⟩] zeros64
    (by
      intro e he
      simp only [List.mem_singleton] at he
      subst he
      constructor
      · intro s hs
        injection hs with hs
        subst hs
        decide
      · intro s hs
        exact Option.noConfusion hs)
    (eventLine ADDED [97] dashB zeros64) (by decide)

/-!
## Dictionary lemmas
-/

theorem dlookup_append {α : Type} (m1 m2 : List (Bytes × α)) (j : Bytes) :
    dlookup (m1 ++ m2) j
      = match dlookup m1 j with
        | some v => some v
        | none => dlookup m2 j := by
  induction m1 with
  | nil => simp [dlookup]
  | cons p m1 ih => by_cases hp : p.1 = j <;> simp [dlookup, hp, ih]

theorem dlookup_map_set {α : Type} (m : List (Bytes × α)) (k j : Bytes) (v : α) :
    dlookup (m.map (fun p => if p.1 = k then (k, v) else p)) j
      = if j = k then (if (dlookup m k).isSome then some v else none)
        else dlookup m j := by
  induction m with
  | nil => by_cases hjk : j = k <;> simp [dlookup, hjk]
  | cons p m ih =>
      by_cases hpk : p.1 = k
      · by_cases hjk : j = k
        · subst hjk
          simp [dlookup, hpk, List.map_cons, ih]
        · have hpj : ¬ p.1 = j := by rw [hpk]; exact fun e => hjk e.symm
          have hkj : ¬ k = j := fun e => hjk e.symm
          simp [dlookup, hpk, hpj, List.map_cons, ih, hjk, hkj]
      · by_cases hpj : p.1 = j
        · have hjk : ¬ j = k := by rw [← hpj]; exact hpk
          simp [dlookup, hpk, hpj, List.map_cons, hjk]
        · simp [dlookup, hpk, hpj, List.map_cons, ih]

theorem dlookup_dictSet {α : Type} (m : List (Bytes × α)) (k j : Bytes) (v : α) :
    dlookup (dictSet m k v) j = if j = k then some v else dlookup m j := by
  unfold dictSet
  by_cases hk : (dlookup m k).isSome
  · rw [if_pos hk, dlookup_map_set]
    by_cases hjk : j = k <;> simp [hjk, hk]
  · rw [if_neg hk, dlookup_append]
    by_cases hjk : j = k
    · subst hjk
      have hnone : dlookup m j = none := by
        cases h : dlookup m j with
        | none => rfl
        | some v2 => rw [h] at hk; simp at hk
      simp [hnone, dlookup]
    · have hkj : ¬ k = j := fun e => hjk e.symm
      cases h : dlookup m j with
      | none => simp [h, dlookup, hkj, hjk]
      | some v2 => simp [h, hjk]

theorem dlookup_dictPop {α : Type} (m : List (Bytes × α)) (k j : Bytes) :
    dlookup (dictPop m k) j = if j = k then none else dlookup m j := by
  induction m with
  | nil => by_cases hjk : j = k <;> simp [dictPop, dlookup, hjk]
  | cons p m ih =>
      by_cases hpk : p.1 = k
      · by_cases hpj : p.1 = j
        · have hjk : j = k := by rw [← hpj, hpk]
          simp [dictPop, dlookup, hpk, hjk] at ih ⊢
          exact ih
        · have hkj : ¬ k = j := by rw [← hpk]; exact hpj
          have hjk : ¬ j = k := fun e => hkj e.symm
          simp [dictPop, List.filter_cons, hpk, dlookup, hpj, hkj, hjk] at ih ⊢
          exact ih
      · by_cases hpj : p.1 = j
        · have hjk : ¬ j = k := by rw [← hpj]; exact hpk
          simp [dictPop, List.filter_cons, hpk, dlookup, hpj, hjk]
        · simp [dictPop, List.filter_cons, hpk, dlookup, hpj] at ih ⊢
          exact ih

theorem dlookup_foldl_set {α : Type} (f : Bytes → α) :
    ∀ (ks : List Bytes) (m0 : List (Bytes × α)) (j : Bytes),
      dlookup (ks.foldl (fun m k => dictSet m k (f k)) m0) j
        = if j ∈ ks then some (f j) else dlookup m0 j := by
  intro ks
  induction ks with
  | nil => intro m0 j; simp
  | cons k ks ih =>
      intro m0 j
      rw [List.foldl_cons, ih]
      by_cases hjks : j ∈ ks
      · simp [hjks]
      · by_cases hjk : j = k
        · subst hjk
          simp [hjks, dlookup_dictSet]
        · simp [hjks, hjk, dlookup_dictSet]

theorem dlookup_foldl_pop {α : Type} :
    ∀ (ks : List Bytes) (m0 : List (Bytes × α)) (j : Bytes),
      dlookup (ks.foldl (fun m k => dictPop m k) m0) j
        = if j ∈ ks then none else dlookup m0 j := by
  intro ks
  induction ks with
  | nil => intro m0 j; simp
  | cons k ks ih =>
      intro m0 j
      rw [List.foldl_cons, ih]
      by_cases hjks : j ∈ ks
      · simp [hjks]
      · by_cases hjk : j = k
        · subst hjk
          simp [hjks, dlookup_dictPop]
        · simp [hjks, hjk, dlookup_dictPop]

theorem dlookup_evalStep (evalEnc : Bytes → Bytes → Bytes × Bytes × Bytes)
    (cur : List (Bytes × Bytes)) (em : List (Bytes × IndexEntry)) (j : Bytes) :
    dlookup (evalStep evalEnc cur em) j
      = if j ∈ toAddL (cur.map Prod.fst) em ++ toUpgradeL (cur.map Prod.fst) em
        then some (evalEntry evalEnc cur j) else dlookup em j :=
  dlookup_foldl_set (evalEntry evalEnc cur) _ em j

/-!
## Claim C7 — events emitted by a reconcile
-/

/-- C7: a reconcile emits exactly one `ADDED` event per `to_add` element in
source order — carrying the freshly computed evaluation — followed by one
`REMOVED` event per `to_remove` element in existing-index order, carrying
the pre-removal snapshot values (which coincide with the original index
row, since removed IOCs are never re-evaluated); `to_upgrade` records
contribute nothing, as the event count states. -/
theorem reconcile_events_shape (evalEnc : Bytes → Bytes → Bytes × Bytes × Bytes)
    (eo : List Bytes) (em : List (Bytes × IndexEntry)) (cur : List (Bytes × Bytes)) :
    (syncCompute evalEnc eo em cur).events
      = (toAddL (cur.map Prod.fst) em).map
          (fun ioc => addedEventOf (evalEntry evalEnc cur ioc))
        ++ (toRemoveL eo (cur.map Prod.fst)).map
          (fun ioc => removedEventOf (dlookup em ioc)) ∧
    (syncCompute evalEnc eo em cur).events.length
      = (toAddL (cur.map Prod.fst) em).length + (toRemoveL eo (cur.map Prod.fst)).length := by
  have hshape : (syncCompute evalEnc eo em cur).events
      = (toAddL (cur.map Prod.fst) em).map
          (fun ioc => addedEventOf (evalEntry evalEnc cur ioc))
        ++ (toRemoveL eo (cur.map Prod.fst)).map
          (fun ioc => removedEventOf (dlookup em ioc)) := by
    simp only [syncCompute]
    congr 1
    · apply List.map_congr_left
      intro ioc hioc
      have hc : ioc ∈ cur.map Prod.fst := (List.mem_filter.mp hioc).1
      have hnr : ioc ∉ toRemoveL eo (cur.map Prod.fst) := by
        intro hcontra
        have h2 := (List.mem_filter.mp hcontra).2
        simp only [decide_eq_true_eq] at h2
        exact h2 hc
      rw [dlookup_foldl_pop, if_neg hnr, dlookup_evalStep,
        if_pos (List.mem_append_left _ hioc)]
      rfl
    · apply List.map_congr_left
      intro ioc hioc
      have hnc : ioc ∉ cur.map Prod.fst := by
        have h2 := (List.mem_filter.mp hioc).2
        simpa using h2
      rw [dlookup_evalStep, if_neg ?hna]
      case hna =>
        intro hmem
        rcases List.mem_append.mp hmem with hx | hx
        · exact hnc (List.mem_filter.mp hx).1
        · exact hnc (List.mem_filter.mp hx).1
  refine ⟨hshape, ?_⟩
  rw [hshape]
  simp

/-!
## Claim C8 — rekey resets the log to a fresh zero-seeded chain
-/

theorem eventLines_length_accepted (sha512 : Bytes → Bytes) :
    ∀ (evs : List ChangeEvent) (prev : Bytes),
      (∀ e ∈ evs, upperBytes (stripBytes e.ev) = ADDED ∨ upperBytes (stripBytes e.ev) = REMOVED) →
      (eventLines sha512 prev evs).length = evs.length := by
  intro evs
  induction evs with
  | nil => intro prev _; rfl
  | cons e evs ih =>
      intro prev hacc
      have he := hacc e (by simp)
      simp [eventLines, he, ih _ (fun x hx => hacc x (by simp [hx]))]

/-- C8: a rekey truncates the change log and rebuilds it from scratch: the
written log is the hash chain seeded from 64 zero bytes over exactly one
`ADDED` event per parsed source record in source order (one line per
record), it satisfies the chain-correctness predicate from the zero seed,
and it is independent of whatever the pre-rekey log contained. -/
theorem rekey_resets_log (sha512 : Bytes → Bytes)
    (evalEnc : Bytes → Bytes → Bytes × Bytes × Bytes)
    (sourceLines oldLogA oldLogB : List Bytes) :
    (rekey_data_run sha512 evalEnc sourceLines oldLogA).2
      = eventLines sha512 zeros64
          ((rekeyEntries evalEnc (parseSourceLines sourceLines)).map rekeyEventOf) ∧
    (rekey_data_run sha512 evalEnc sourceLines oldLogA).2
      = (rekey_data_run sha512 evalEnc sourceLines oldLogB).2 ∧
    ((rekey_data_run sha512 evalEnc sourceLines oldLogA).2).length
      = (parseSourceLines sourceLines).length ∧
    (∀ e ∈ rekeyEntries evalEnc (parseSourceLines sourceLines), (rekeyEventOf e).ev = ADDED) ∧
    chainOk sha512 zeros64 ((rekey_data_run sha512 evalEnc sourceLines oldLogA).2) := by
  have hlog : (rekey_data_run sha512 evalEnc sourceLines oldLogA).2
      = eventLines sha512 zeros64
          ((rekeyEntries evalEnc (parseSourceLines sourceLines)).map rekeyEventOf) := rfl
  have hacc : ∀ e ∈ (rekeyEntries evalEnc (parseSourceLines sourceLines)).map rekeyEventOf,
      upperBytes (stripBytes e.ev) = ADDED ∨ upperBytes (stripBytes e.ev) = REMOVED := by
    intro e he
    rcases List.mem_map.mp he with ⟨en, _, rfl⟩
    left
    show upperBytes (stripBytes ADDED) = ADDED
    decide
  refine ⟨hlog, rfl, ?_, fun e _ => rfl, ?_⟩
  · rw [hlog, eventLines_length_accepted sha512 _ zeros64 hacc]
    simp [rekeyEntries]
  · rw [hlog]
    exact chainOk_eventLines sha512 _ zeros64

/-!
## Strip and split helper lemmas for the index round trip
-/

theorem length_dropWhile_le {α : Type} (p : α → Bool) (l : List α) :
    (l.dropWhile p).length ≤ l.length := by
  induction l with
  | nil => simp
  | cons a t ih =>
      by_cases hp : p a <;> simp [List.dropWhile_cons, hp] <;> omega

theorem head_nonp_of_dropWhile_eq {α : Type} (p : α → Bool) (l : List α)
    (h : l.dropWhile p = l) : ∀ a, l.head? = some a → p a = false := by
  intro a ha
  cases l with
  | nil => cases ha
  | cons b t =>
      have hb : b = a := by simpa using ha
      subst hb
      by_contra hp
      have hp2 : p b = true := by simpa using hp
      rw [List.dropWhile_cons, if_pos hp2] at h
      have hle := length_dropWhile_le p t
      have hlen := congrArg List.length h
      simp at hlen
      omega

theorem dropWhile_eq_self_of_length {α : Type} (p : α → Bool) (l : List α)
    (h : (l.dropWhile p).length = l.length) : l.dropWhile p = l := by
  cases l with
  | nil => rfl
  | cons a t =>
      by_cases hp : p a
      · exfalso
        rw [List.dropWhile_cons, if_pos hp] at h
        have := length_dropWhile_le p t
        simp at h
        omega
      · rw [List.dropWhile_cons, if_neg hp]

theorem stripBytes_parts (s : Bytes) (h : stripBytes s = s) :
    s.dropWhile isSpaceByte = s ∧ s.reverse.dropWhile isSpaceByte = s.reverse := by
  have hlen : (stripBytes s).length = s.length := by rw [h]
  have hchain : (stripBytes s).length ≤ (s.dropWhile isSpaceByte).length := by
    unfold stripBytes
    simpa using length_dropWhile_le isSpaceByte (s.dropWhile isSpaceByte).reverse
  have hle2 := length_dropWhile_le isSpaceByte s
  have hd1 : s.dropWhile isSpaceByte = s := by
    apply dropWhile_eq_self_of_length
    omega
  refine ⟨hd1, ?_⟩
  have h2 : (s.reverse.dropWhile isSpaceByte).reverse = s := by
    unfold stripBytes at h
    rwa [hd1] at h
  have := congrArg List.reverse h2
  simpa using this

theorem strip_head_nonws (s : Bytes) (h : stripBytes s = s) :
    ∀ a, s.head? = some a → isSpaceByte a = false :=
  head_nonp_of_dropWhile_eq isSpaceByte s (stripBytes_parts s h).1

theorem strip_last_nonws (s : Bytes) (h : stripBytes s = s) :
    ∀ a, s.getLast? = some a → isSpaceByte a = false := by
  intro a ha
  apply head_nonp_of_dropWhile_eq isSpaceByte s.reverse (stripBytes_parts s h).2
  rwa [List.head?_reverse]

theorem mem_of_mem_dropWhile {α : Type} (p : α → Bool) :
    ∀ (l : List α) (b : α), b ∈ l.dropWhile p → b ∈ l := by
  intro l
  induction l with
  | nil => intro b hb; simpa using hb
  | cons a t ih =>
      intro b hb
      by_cases hp : p a
      · rw [List.dropWhile_cons, if_pos hp] at hb
        exact List.mem_cons_of_mem a (ih b hb)
      · rwa [List.dropWhile_cons, if_neg hp] at hb

theorem mem_stripBytes (s : Bytes) (b : Nat) (hb : b ∈ stripBytes s) : b ∈ s := by
  unfold stripBytes at hb
  rw [List.mem_reverse] at hb
  have h1 := mem_of_mem_dropWhile isSpaceByte _ b hb
  rw [List.mem_reverse] at h1
  exact mem_of_mem_dropWhile isSpaceByte s b h1

theorem dropWhile_head_false {α : Type} (p : α → Bool) :
    ∀ (l : List α) (a : α), (l.dropWhile p).head? = some a → p a = false := by
  intro l
  induction l with
  | nil => intro a ha; cases ha
  | cons b t ih =>
      intro a ha
      by_cases hp : p b
      · rw [List.dropWhile_cons, if_pos hp] at ha
        exact ih a ha
      · rw [List.dropWhile_cons, if_neg hp] at ha
        have : b = a := by simpa using ha
        subst this
        simpa using hp

theorem getLast_dropWhile {α : Type} (p : α → Bool) :
    ∀ (l : List α), l.dropWhile p ≠ [] → (l.dropWhile p).getLast? = l.getLast? := by
  intro l
  induction l with
  | nil => intro h; simp at h
  | cons a t ih =>
      intro h
      by_cases hp : p a
      · rw [List.dropWhile_cons, if_pos hp] at h ⊢
        have htne : t ≠ [] := by
          intro e
          subst e
          simp at h
        rw [ih h]
        cases t with
        | nil => exact absurd rfl htne
        | cons x xs => rw [List.getLast?_cons_cons]
      · rw [List.dropWhile_cons, if_neg hp]

theorem stripBytes_idem (s : Bytes) : stripBytes (stripBytes s) = stripBytes s := by
  apply stripBytes_eq_self
  · intro a ha
    unfold stripBytes at ha
    rw [List.head?_reverse] at ha
    by_cases hne : (s.dropWhile isSpaceByte).reverse.dropWhile isSpaceByte = []
    · rw [hne] at ha
      cases ha
    · rw [getLast_dropWhile isSpaceByte _ hne, List.getLast?_reverse] at ha
      exact dropWhile_head_false isSpaceByte s a ha
  · intro a ha
    unfold stripBytes at ha
    rw [List.getLast?_reverse] at ha
    exact dropWhile_head_false isSpaceByte _ a ha

theorem stripBytes_of_nonws (s : Bytes) (h : ∀ b ∈ s, isSpaceByte b = false) :
    stripBytes s = s := by
  apply stripBytes_eq_self
  · intro a ha
    exact h a (by
      have := List.mem_of_mem_head? (l := s) (a := a)
      simp_all)
  · intro a ha
    exact h a (by
      have := List.mem_of_mem_getLast? (l := s) (a := a)
      simp_all)

theorem splitOnByte_no_sep (c : Nat) :
    ∀ (s : Bytes), ∀ part ∈ splitOnByte c s, ¬ c ∈ part := by
  intro s
  induction s with
  | nil =>
      intro part hp
      simp [splitOnByte] at hp
      subst hp
      simp
  | cons b rest ih =>
      intro part hp
      by_cases hb : b = c
      · rw [show splitOnByte c (b :: rest) = [] :: splitOnByte c rest by
          simp [splitOnByte, hb]] at hp
        rcases List.mem_cons.mp hp with rfl | hp2
        · simp
        · exact ih part hp2
      · rw [show splitOnByte c (b :: rest)
            = (match splitOnByte c rest with
               | [] => [[b]]
               | t :: ts => (b :: t) :: ts) by simp [splitOnByte, hb]] at hp
        cases hsp : splitOnByte c rest with
        | nil =>
            rw [hsp] at hp
            simp at hp
            subst hp
            intro hc
            simp at hc
            exact hb hc.symm
        | cons t ts =>
            rw [hsp] at hp
            rcases List.mem_cons.mp hp with rfl | hp2
            · intro hmem
              rcases List.mem_cons.mp hmem with rfl | hmem2
              · exact hb rfl
              · exact ih t (by rw [hsp]; simp) hmem2
            · exact ih part (by rw [hsp]; simp [hp2])

theorem splitOnByte_of_no_sep (c : Nat) :
    ∀ (u : Bytes), ¬ c ∈ u → splitOnByte c u = [u] := by
  intro u
  induction u with
  | nil => intro _; rfl
  | cons b rest ih =>
      intro hc
      have hb : ¬ b = c := fun e => hc (by simp [e])
      have hrest : ¬ c ∈ rest := fun hm => hc (by simp [hm])
      rw [show splitOnByte c (b :: rest)
          = (match splitOnByte c rest with
             | [] => [[b]]
             | t :: ts => (b :: t) :: ts) by simp [splitOnByte, hb]]
      rw [ih hrest]

theorem splitOnByte_append (c : Nat) :
    ∀ (u v : Bytes), ¬ c ∈ u → splitOnByte c (u ++ c :: v) = u :: splitOnByte c v := by
  intro u
  induction u with
  | nil =>
      intro v _
      simp [splitOnByte]
  | cons b rest ih =>
      intro v hc
      have hb : ¬ b = c := fun e => hc (by simp [e])
      have hrest : ¬ c ∈ rest := fun hm => hc (by simp [hm])
      have hr := ih v hrest
      rw [List.cons_append]
      rw [show splitOnByte c (b :: (rest ++ c :: v))
          = (match splitOnByte c (rest ++ c :: v) with
             | [] => [[b]]
             | t :: ts => (b :: t) :: ts) by simp [splitOnByte, hb]]
      rw [hr]

/-!
## Index line round trip
-/

theorem last_sep_field (v : Bytes) (hv : stripBytes v = v) :
    ∀ a, ((44 : Nat) :: v).getLast? = some a → isSpaceByte a = false := by
  intro a ha
  cases v with
  | nil =>
      have h44 : (44 : Nat) = a := by simpa using ha
      subst h44
      decide
  | cons x xs =>
      rw [List.getLast?_cons_cons] at ha
      exact strip_last_nonws _ hv a ha

theorem strip_line2 (ioc o : Bytes) (hioc : iocWf ioc) (ho : stripBytes o = o) :
    stripBytes (ioc ++ 44 :: o) = ioc ++ 44 :: o := by
  apply stripBytes_eq_self
  · intro a ha
    rw [List.head?_append_of_ne_nil ioc hioc.1] at ha
    exact strip_head_nonws ioc hioc.2.1 a ha
  · intro a ha
    rw [List.getLast?_append_of_ne_nil ioc (by simp)] at ha
    exact last_sep_field o ho a ha

theorem strip_line4 (ioc o n c : Bytes) (hioc : iocWf ioc) (hc : stripBytes c = c) :
    stripBytes (ioc ++ 44 :: (o ++ 44 :: (n ++ 44 :: c)))
      = ioc ++ 44 :: (o ++ 44 :: (n ++ 44 :: c)) := by
  apply stripBytes_eq_self
  · intro a ha
    rw [List.head?_append_of_ne_nil ioc hioc.1] at ha
    exact strip_head_nonws ioc hioc.2.1 a ha
  · intro a ha
    rw [List.getLast?_append_of_ne_nil ioc (by simp)] at ha
    rw [show (44 : Nat) :: (o ++ 44 :: (n ++ 44 :: c))
        = ((44 :: o) ++ (44 :: (n ++ 44 :: c))) by simp] at ha
    rw [List.getLast?_append_of_ne_nil _ (by simp)] at ha
    rw [show (44 : Nat) :: (n ++ 44 :: c) = ((44 :: n) ++ (44 :: c)) by simp] at ha
    rw [List.getLast?_append_of_ne_nil _ (by simp)] at ha
    exact last_sep_field c hc a ha

theorem parseIndexStep_line4 (st : List Bytes × List (Bytes × IndexEntry))
    (ioc o n c : Bytes) (hioc : iocWf ioc)
    (hfo : fieldWf o) (hfn : fieldWf n) (hfc : fieldWf c) :
    parseIndexStep st (ioc ++ 44 :: (o ++ 44 :: (n ++ 44 :: c)))
      = (st.1 ++ [ioc], dictSet st.2 ioc ⟨o, some n, some c⟩) := by
  have hstrip := strip_line4 ioc o n c hioc hfc.1
  have hsplit : splitOnByte 44 (ioc ++ 44 :: (o ++ 44 :: (n ++ 44 :: c))) = [ioc, o, n, c] := by
    rw [splitOnByte_append 44 ioc _ hioc.2.2, splitOnByte_append 44 o _ hfo.2,
      splitOnByte_append 44 n _ hfn.2, splitOnByte_of_no_sep 44 c hfc.2]
  unfold parseIndexStep
  simp only [hstrip, hsplit, List.map_cons, List.map_nil, hioc.2.1, hfo.1, hfn.1, hfc.1]
  rw [if_neg (by simp)]
  simp only [List.getD_cons_zero]
  rw [if_neg hioc.1]
  simp

theorem parseIndexStep_line2 (st : List Bytes × List (Bytes × IndexEntry))
    (ioc o : Bytes) (hioc : iocWf ioc) (hfo : fieldWf o) :
    parseIndexStep st (ioc ++ 44 :: o)
      = (st.1 ++ [ioc], dictSet st.2 ioc ⟨o, none, none⟩) := by
  have hstrip := strip_line2 ioc o hioc hfo.1
  have hsplit : splitOnByte 44 (ioc ++ 44 :: o) = [ioc, o] := by
    rw [splitOnByte_append 44 ioc _ hioc.2.2, splitOnByte_of_no_sep 44 o hfo.2]
  unfold parseIndexStep
  simp only [hstrip, hsplit, List.map_cons, List.map_nil, hioc.2.1, hfo.1]
  rw [if_neg (by simp)]
  simp only [List.getD_cons_zero]
  rw [if_neg hioc.1]
  simp

theorem parseIndexStep_writeIndexLine (st : List Bytes × List (Bytes × IndexEntry))
    (ioc : Bytes) (e : IndexEntry) (hioc : iocWf ioc) (he : entryWf e) :
    parseIndexStep st (writeIndexLine ioc e)
      = (st.1 ++ [ioc], dictSet st.2 ioc (normalizeEntry e)) := by
  obtain ⟨o, onc, oct⟩ := e
  obtain ⟨hfo, hfn, hfc⟩ := he
  cases onc with
  | some n =>
      cases oct with
      | some c =>
          have hline : writeIndexLine ioc ⟨o, some n, some c⟩
              = ioc ++ 44 :: (o ++ 44 :: (n ++ 44 :: c)) := by
            simp [writeIndexLine]
          rw [hline, parseIndexStep_line4 st ioc o n c hioc hfo (hfn n rfl) (hfc c rfl)]
          rfl
      | none =>
          have hline : writeIndexLine ioc ⟨o, some n, none⟩ = ioc ++ 44 :: o := by
            simp [writeIndexLine]
          rw [hline, parseIndexStep_line2 st ioc o hioc hfo]
          rfl
  | none =>
      cases oct with
      | some c =>
          have hline : writeIndexLine ioc ⟨o, none, some c⟩ = ioc ++ 44 :: o := by
            simp [writeIndexLine]
          rw [hline, parseIndexStep_line2 st ioc o hioc hfo]
          rfl
      | none =>
          have hline : writeIndexLine ioc ⟨o, none, none⟩ = ioc ++ 44 :: o := by
            simp [writeIndexLine]
          rw [hline, parseIndexStep_line2 st ioc o hioc hfo]
          rfl

theorem parse_write_fold (m : List (Bytes × IndexEntry)) :
    ∀ (order : List Bytes),
      (∀ ioc ∈ order, iocWf ioc) →
      (∀ ioc ∈ order, entryWf (entryOf m ioc)) →
      ∀ (o0 : List Bytes) (m0 : List (Bytes × IndexEntry)),
        ((writeIndexLines order m).foldl parseIndexStep (o0, m0)).1 = o0 ++ order ∧
        ∀ j, dlookup ((writeIndexLines order m).foldl parseIndexStep (o0, m0)).2 j
          = if j ∈ order then some (normalizeEntry (entryOf m j)) else dlookup m0 j := by
  intro order
  induction order with
  | nil =>
      intro _ _ o0 m0
      exact ⟨by simp [writeIndexLines], fun j => by simp [writeIndexLines]⟩
  | cons ioc rest ih =>
      intro hord hent o0 m0
      have hw : writeIndexLines (ioc :: rest) m
          = writeIndexLine ioc (entryOf m ioc) :: writeIndexLines rest m := rfl
      rw [hw, List.foldl_cons,
        parseIndexStep_writeIndexLine (o0, m0) ioc (entryOf m ioc)
          (hord ioc (by simp)) (hent ioc (by simp))]
      obtain ⟨ih1, ih2⟩ := ih (fun i hi => hord i (by simp [hi]))
        (fun i hi => hent i (by simp [hi])) (o0 ++ [ioc])
        (dictSet m0 ioc (normalizeEntry (entryOf m ioc)))
      refine ⟨by rw [ih1]; simp, ?_⟩
      intro j
      rw [ih2 j]
      by_cases hjr : j ∈ rest
      · simp [hjr]
      · by_cases hji : j = ioc
        · subst hji
          simp [hjr, dlookup_dictSet]
        · simp [hjr, hji, dlookup_dictSet]

theorem parseIndexLines_writeIndexLines (order : List Bytes)
    (m : List (Bytes × IndexEntry))
    (hord : ∀ ioc ∈ order, iocWf ioc)
    (hent : ∀ ioc ∈ order, entryWf (entryOf m ioc)) :
    (parseIndexLines (writeIndexLines order m)).1 = order ∧
    ∀ j, dlookup (parseIndexLines (writeIndexLines order m)).2 j
      = if j ∈ order then some (normalizeEntry (entryOf m j)) else none := by
  obtain ⟨h1, h2⟩ := parse_write_fold m order hord hent [] []
  refine ⟨by simpa using h1, fun j => ?_⟩
  have := h2 j
  simpa [dlookup] using this

/-!
## Invariants of the index parse
-/

theorem fieldWf_nil : fieldWf [] := ⟨rfl, by simp⟩

theorem parseIndexStep_inv (st : List Bytes × List (Bytes × IndexEntry)) (raw : Bytes)
    (h : (∀ i ∈ st.1, iocWf i) ∧ (∀ j e, dlookup st.2 j = some e → entryWf e) ∧
         (∀ i ∈ st.1, (dlookup st.2 i).isSome)) :
    (∀ i ∈ (parseIndexStep st raw).1, iocWf i) ∧
    (∀ j e, dlookup (parseIndexStep st raw).2 j = some e → entryWf e) ∧
    (∀ i ∈ (parseIndexStep st raw).1, (dlookup (parseIndexStep st raw).2 i).isSome) := by
  obtain ⟨h1, h2, h3⟩ := h
  unfold parseIndexStep
  by_cases hskip : stripBytes raw = [] ∨ ¬ 44 ∈ stripBytes raw
  · rw [if_pos hskip]
    exact ⟨h1, h2, h3⟩
  · rw [if_neg hskip]
    by_cases hioc : ((splitOnByte 44 (stripBytes raw)).map stripBytes).getD 0 [] = []
    · rw [if_pos hioc]
      exact ⟨h1, h2, h3⟩
    · rw [if_neg hioc]
      have hfieldwf : ∀ x ∈ (splitOnByte 44 (stripBytes raw)).map stripBytes, fieldWf x := by
        intro x hx
        rcases List.mem_map.mp hx with ⟨y, hy, rfl⟩
        exact ⟨stripBytes_idem y,
          fun hc => splitOnByte_no_sep 44 _ y hy (mem_stripBytes y 44 hc)⟩
      have hiocwf : iocWf (((splitOnByte 44 (stripBytes raw)).map stripBytes).getD 0 []) := by
        refine ⟨hioc, ?_⟩
        rw [List.getD_eq_getElem?_getD]
        cases hp2 : ((splitOnByte 44 (stripBytes raw)).map stripBytes)[0]? with
        | none => exact fieldWf_nil
        | some x => exact hfieldwf x (List.getElem?_mem hp2)
      have hentrywf : entryWf ⟨((splitOnByte 44 (stripBytes raw)).map stripBytes).getD 1 [],
          ((splitOnByte 44 (stripBytes raw)).map stripBytes)[2]?,
          ((splitOnByte 44 (stripBytes raw)).map stripBytes)[3]?⟩ := by
        refine ⟨?_, ?_, ?_⟩
        · rw [List.getD_eq_getElem?_getD]
          cases hp2 : ((splitOnByte 44 (stripBytes raw)).map stripBytes)[1]? with
          | none => exact fieldWf_nil
          | some x => exact hfieldwf x (List.getElem?_mem hp2)
        · intro n hn
          exact hfieldwf n (List.getElem?_mem hn)
        · intro c hc
          exact hfieldwf c (List.getElem?_mem hc)
      refine ⟨?_, ?_, ?_⟩
      · intro i hi
        rcases List.mem_append.mp hi with hi1 | hi2
        · exact h1 i hi1
        · rw [List.mem_singleton] at hi2
          subst hi2
          exact hiocwf
      · intro j e hje
        rw [dlookup_dictSet] at hje
        by_cases hj : j = ((splitOnByte 44 (stripBytes raw)).map stripBytes).getD 0 []
        · rw [if_pos hj] at hje
          injection hje with hje
          subst hje
          exact hentrywf
        · rw [if_neg hj] at hje
          exact h2 j e hje
      · intro i hi
        rw [dlookup_dictSet]
        by_cases hj : i = ((splitOnByte 44 (stripBytes raw)).map stripBytes).getD 0 []
        · rw [if_pos hj]
          rfl
        · rw [if_neg hj]
          rcases List.mem_append.mp hi with hi1 | hi2
          · exact h3 i hi1
          · rw [List.mem_singleton] at hi2
            exact absurd hi2 hj

theorem parseIndexLines_inv (lines : List Bytes) :
    (∀ i ∈ (parseIndexLines lines).1, iocWf i) ∧
    (∀ j e, dlookup (parseIndexLines lines).2 j = some e → entryWf e) ∧
    (∀ i ∈ (parseIndexLines lines).1, (dlookup (parseIndexLines lines).2 i).isSome) := by
  have hfold : ∀ (ls : List Bytes) (st : List Bytes × List (Bytes × IndexEntry)),
      ((∀ i ∈ st.1, iocWf i) ∧ (∀ j e, dlookup st.2 j = some e → entryWf e) ∧
        (∀ i ∈ st.1, (dlookup st.2 i).isSome)) →
      ((∀ i ∈ (ls.foldl parseIndexStep st).1, iocWf i) ∧
        (∀ j e, dlookup (ls.foldl parseIndexStep st).2 j = some e → entryWf e) ∧
        (∀ i ∈ (ls.foldl parseIndexStep st).1, (dlookup (ls.foldl parseIndexStep st).2 i).isSome)) := by
    intro ls
    induction ls with
    | nil => intro st h; exact h
    | cons raw ls ih =>
        intro st h
        rw [List.foldl_cons]
        exact ih _ (parseIndexStep_inv st raw h)
  exact hfold lines ([], []) ⟨by simp, by intro j e he; simp [dlookup] at he, by simp⟩

theorem parseSourceLines_iocWf (lines : List Bytes) :
    ∀ p ∈ parseSourceLines lines, iocWf p.1 := by
  intro p hp
  unfold parseSourceLines at hp
  rcases List.mem_filterMap.mp hp with ⟨raw, _, hmap⟩
  simp only at hmap
  by_cases h1 : stripBytes raw = []
  · simp [h1] at hmap
  · by_cases h2 : ¬ 44 ∈ stripBytes raw
    · simp [h1, h2] at hmap
    · by_cases h3 : stripBytes (splitFirstComma (stripBytes raw)).1 = []
      · simp [h1, h2, h3] at hmap
      · simp only [h1, h2, h3, if_neg, if_pos, ite_false, ite_true, not_false_eq_true] at hmap
        injection hmap with hmap
        subst hmap
        refine ⟨h3, stripBytes_idem _, ?_⟩
        intro hc
        have hc2 := mem_stripBytes _ 44 hc
        have hmem := List.mem_takeWhile_imp hc2
        simp at hmem

theorem fieldWf_toHex (bs : Bytes) : fieldWf (toHex bs) :=
  ⟨stripBytes_of_nonws _ (toHex_nonws bs), by
    intro hc
    rcases toHex_mem_range bs 44 hc with h | h <;> omega⟩

theorem entryWf_evalEntry (evalEnc : Bytes → Bytes → Bytes × Bytes × Bytes)
    (cur : List (Bytes × Bytes)) (ioc : Bytes) : entryWf (evalEntry evalEnc cur ioc) := by
  refine ⟨fieldWf_toHex _, ?_, ?_⟩
  · intro n hn
    injection hn with hn
    subst hn
    exact fieldWf_toHex _
  · intro c hc
    injection hc with hc
    subst hc
    exact fieldWf_toHex _

theorem mem_appendNew :
    ∀ (l acc : List Bytes) (i : Bytes),
      i ∈ l.foldl (fun acc x => if x ∈ acc then acc else acc ++ [x]) acc
        ↔ (i ∈ acc ∨ i ∈ l) := by
  intro l
  induction l with
  | nil => intro acc i; simp
  | cons x l ih =>
      intro acc i
      rw [List.foldl_cons, ih]
      by_cases hx : x ∈ acc
      · rw [if_pos hx]
        constructor
        · rintro (h | h)
          · exact Or.inl h
          · exact Or.inr (List.mem_cons_of_mem x h)
        · rintro (h | h)
          · exact Or.inl h
          · rcases List.mem_cons.mp h with rfl | h2
            · exact Or.inl hx
            · exact Or.inr h2
      · rw [if_neg hx]
        simp only [List.mem_append, List.mem_singleton, List.mem_cons]
        tauto

/-!
## Second reconcile over an unchanged source is trivial
-/

theorem second_run_trivial (evalEnc1 evalEnc2 : Bytes → Bytes → Bytes × Bytes × Bytes)
    (eo : List Bytes) (em : List (Bytes × IndexEntry)) (cur : List (Bytes × Bytes))
    (hcurwf : ∀ p ∈ cur, iocWf p.1)
    (hemwf : ∀ j e, dlookup em j = some e → entryWf e) :
    (parseIndexLines (writeIndexLines (syncCompute evalEnc1 eo em cur).newOrder
        (syncCompute evalEnc1 eo em cur).newMap)).1
      = (syncCompute evalEnc1 eo em cur).newOrder ∧
    toAddL (cur.map Prod.fst)
        (parseIndexLines (writeIndexLines (syncCompute evalEnc1 eo em cur).newOrder
          (syncCompute evalEnc1 eo em cur).newMap)).2 = [] ∧
    toRemoveL
        (parseIndexLines (writeIndexLines (syncCompute evalEnc1 eo em cur).newOrder
          (syncCompute evalEnc1 eo em cur).newMap)).1
        (cur.map Prod.fst) = [] ∧
    toUpgradeL (cur.map Prod.fst)
        (parseIndexLines (writeIndexLines (syncCompute evalEnc1 eo em cur).newOrder
          (syncCompute evalEnc1 eo em cur).newMap)).2 = [] ∧
    (syncCompute evalEnc2
        (parseIndexLines (writeIndexLines (syncCompute evalEnc1 eo em cur).newOrder
          (syncCompute evalEnc1 eo em cur).newMap)).1
        (parseIndexLines (writeIndexLines (syncCompute evalEnc1 eo em cur).newOrder
          (syncCompute evalEnc1 eo em cur).newMap)).2
        cur).events = [] := by
  have hno : (syncCompute evalEnc1 eo em cur).newOrder
      = (cur.map Prod.fst).foldl (fun acc i => if i ∈ acc then acc else acc ++ [i])
          (eo.filter (fun i => (dlookup ((toRemoveL eo (cur.map Prod.fst)).foldl
            (fun m ioc => dictPop m ioc) (evalStep evalEnc1 cur em)) i).isSome)) := rfl
  have hnm : (syncCompute evalEnc1 eo em cur).newMap
      = (toRemoveL eo (cur.map Prod.fst)).foldl (fun m ioc => dictPop m ioc)
          (evalStep evalEnc1 cur em) := rfl
  have hmemcur : ∀ i ∈ (syncCompute evalEnc1 eo em cur).newOrder, i ∈ cur.map Prod.fst := by
    intro i hi
    rw [hno] at hi
    rcases (mem_appendNew _ _ i).mp hi with hi0 | hi2
    · obtain ⟨hieo, hsome⟩ := List.mem_filter.mp hi0
      by_contra hnc
      have hirem : i ∈ toRemoveL eo (cur.map Prod.fst) :=
        List.mem_filter.mpr ⟨hieo, decide_eq_true hnc⟩
      rw [dlookup_foldl_pop, if_pos hirem] at hsome
      simp at hsome
    · exact hi2
  have hcurmem : ∀ i ∈ cur.map Prod.fst, i ∈ (syncCompute evalEnc1 eo em cur).newOrder := by
    intro i hi
    rw [hno]
    exact (mem_appendNew _ _ i).mpr (Or.inr hi)
  have hlook3 : ∀ i ∈ cur.map Prod.fst,
      ∃ e, dlookup (syncCompute evalEnc1 eo em cur).newMap i = some e ∧
        entryWf e ∧ e.nonce.isSome ∧ e.ct.isSome := by
    intro i hi
    rw [hnm]
    have hnotrem : i ∉ toRemoveL eo (cur.map Prod.fst) := by
      intro hmem
      have h2 := of_decide_eq_true (List.mem_filter.mp hmem).2
      exact h2 hi
    rw [dlookup_foldl_pop, if_neg hnotrem, dlookup_evalStep]
    by_cases hin : i ∈ toAddL (cur.map Prod.fst) em ++ toUpgradeL (cur.map Prod.fst) em
    · rw [if_pos hin]
      exact ⟨evalEntry evalEnc1 cur i, rfl, entryWf_evalEntry _ _ _, rfl, rfl⟩
    · rw [if_neg hin]
      have hnadd : i ∉ toAddL (cur.map Prod.fst) em :=
        fun h2 => hin (List.mem_append_left _ h2)
      have hnupg : i ∉ toUpgradeL (cur.map Prod.fst) em :=
        fun h2 => hin (List.mem_append_right _ h2)
      cases he : dlookup em i with
      | none =>
          exfalso
          apply hnadd
          unfold toAddL
          exact List.mem_filter.mpr ⟨hi, by rw [he]; rfl⟩
      | some e =>
          refine ⟨e, rfl, hemwf i e he, ?_, ?_⟩
          · cases hnn : e.nonce with
            | none =>
                exfalso
                apply hnupg
                unfold toUpgradeL
                refine List.mem_filter.mpr ⟨hi, ?_⟩
                simp [he, needsUpgrade, hnn]
            | some n => rfl
          · cases hcc : e.ct with
            | none =>
                exfalso
                apply hnupg
                unfold toUpgradeL
                refine List.mem_filter.mpr ⟨hi, ?_⟩
                simp [he, needsUpgrade, hcc]
            | some c => rfl
  have hordwf : ∀ i ∈ (syncCompute evalEnc1 eo em cur).newOrder, iocWf i := by
    intro i hi
    rcases List.mem_map.mp (hmemcur i hi) with ⟨p, hp, rfl⟩
    exact hcurwf p hp
  have hentwf : ∀ i ∈ (syncCompute evalEnc1 eo em cur).newOrder,
      entryWf (entryOf (syncCompute evalEnc1 eo em cur).newMap i) := by
    intro i hi
    obtain ⟨e, he, hew, _, _⟩ := hlook3 i (hmemcur i hi)
    unfold entryOf
    rw [he]
    exact hew
  obtain ⟨hp1, hp2⟩ := parseIndexLines_writeIndexLines _ _ hordwf hentwf
  have hA : toAddL (cur.map Prod.fst)
      (parseIndexLines (writeIndexLines (syncCompute evalEnc1 eo em cur).newOrder
        (syncCompute evalEnc1 eo em cur).newMap)).2 = [] := by
    unfold toAddL
    rw [List.filter_eq_nil_iff]
    intro i hi
    rw [hp2 i, if_pos (hcurmem i hi)]
    simp
  have hR : toRemoveL
      (parseIndexLines (writeIndexLines (syncCompute evalEnc1 eo em cur).newOrder
        (syncCompute evalEnc1 eo em cur).newMap)).1
      (cur.map Prod.fst) = [] := by
    unfold toRemoveL
    rw [hp1, List.filter_eq_nil_iff]
    intro i hi
    simp only [decide_eq_true_eq, not_not]
    exact hmemcur i hi
  have hU : toUpgradeL (cur.map Prod.fst)
      (parseIndexLines (writeIndexLines (syncCompute evalEnc1 eo em cur).newOrder
        (syncCompute evalEnc1 eo em cur).newMap)).2 = [] := by
    unfold toUpgradeL
    rw [List.filter_eq_nil_iff]
    intro i hi
    rw [hp2 i, if_pos (hcurmem i hi)]
    obtain ⟨e, he, _, hn, hc⟩ := hlook3 i hi
    unfold entryOf
    rw [he]
    cases hnn : e.nonce with
    | none => rw [hnn] at hn; simp at hn
    | some n =>
        cases hcc : e.ct with
        | none => rw [hcc] at hc; simp at hc
        | some c => simp [normalizeEntry, hnn, hcc, needsUpgrade]
  have hE : (syncCompute evalEnc2
      (parseIndexLines (writeIndexLines (syncCompute evalEnc1 eo em cur).newOrder
        (syncCompute evalEnc1 eo em cur).newMap)).1
      (parseIndexLines (writeIndexLines (syncCompute evalEnc1 eo em cur).newOrder
        (syncCompute evalEnc1 eo em cur).newMap)).2
      cur).events = [] := by
    have hev : (syncCompute evalEnc2
        (parseIndexLines (writeIndexLines (syncCompute evalEnc1 eo em cur).newOrder
          (syncCompute evalEnc1 eo em cur).newMap)).1
        (parseIndexLines (writeIndexLines (syncCompute evalEnc1 eo em cur).newOrder
          (syncCompute evalEnc1 eo em cur).newMap)).2
        cur).events
        = (toAddL (cur.map Prod.fst)
            (parseIndexLines (writeIndexLines (syncCompute evalEnc1 eo em cur).newOrder
              (syncCompute evalEnc1 eo em cur).newMap)).2).map
            (fun ioc => addedEventOf ((dlookup ((toRemoveL
              (parseIndexLines (writeIndexLines (syncCompute evalEnc1 eo em cur).newOrder
                (syncCompute evalEnc1 eo em cur).newMap)).1
              (cur.map Prod.fst)).foldl (fun m ioc => dictPop m ioc)
              (evalStep evalEnc2 cur
                (parseIndexLines (writeIndexLines (syncCompute evalEnc1 eo em cur).newOrder
                  (syncCompute evalEnc1 eo em cur).newMap)).2)) ioc).getD ⟨[], none, none⟩))
          ++ (toRemoveL
              (parseIndexLines (writeIndexLines (syncCompute evalEnc1 eo em cur).newOrder
                (syncCompute evalEnc1 eo em cur).newMap)).1
              (cur.map Prod.fst)).map
            (fun ioc => removedEventOf (dlookup (evalStep evalEnc2 cur
              (parseIndexLines (writeIndexLines (syncCompute evalEnc1 eo em cur).newOrder
                (syncCompute evalEnc1 eo em cur).newMap)).2) ioc)) := rfl
    rw [hev, hA, hR]
    simp
  exact ⟨hp1, hA, hR, hU, hE⟩

/-!
## Claim C6 — idempotent reconcile
-/

/-- C6: running `sync_data` a second time against the same unchanged source
file is a no-op for clients: on the second run `to_add`, `to_remove` and
`to_upgrade` are all empty, the run emits no events, and the change-log
bytes are unchanged; this holds for arbitrary source, index and log files
and arbitrary evaluation results (the fresh nonces of the two runs may
differ). -/
theorem reconcile_idempotent (sha512 : Bytes → Bytes)
    (evalEnc1 evalEnc2 : Bytes → Bytes → Bytes × Bytes × Bytes)
    (sourceLines indexLines logLines : List Bytes) :
    toAddL ((parseSourceLines sourceLines).map Prod.fst)
        (parseIndexLines (sync_data_run sha512 evalEnc1 sourceLines indexLines logLines).1).2
      = [] ∧
    toRemoveL
        (parseIndexLines (sync_data_run sha512 evalEnc1 sourceLines indexLines logLines).1).1
        ((parseSourceLines sourceLines).map Prod.fst) = [] ∧
    toUpgradeL ((parseSourceLines sourceLines).map Prod.fst)
        (parseIndexLines (sync_data_run sha512 evalEnc1 sourceLines indexLines logLines).1).2
      = [] ∧
    (syncCompute evalEnc2
        (parseIndexLines (sync_data_run sha512 evalEnc1 sourceLines indexLines logLines).1).1
        (parseIndexLines (sync_data_run sha512 evalEnc1 sourceLines indexLines logLines).1).2
        (parseSourceLines sourceLines)).events = [] ∧
    (sync_data_run sha512 evalEnc2 sourceLines
        (sync_data_run sha512 evalEnc1 sourceLines indexLines logLines).1
        (sync_data_run sha512 evalEnc1 sourceLines indexLines logLines).2).2
      = (sync_data_run sha512 evalEnc1 sourceLines indexLines logLines).2 := by
  have hinv2 := (parseIndexLines_inv indexLines).2.1
  have hcw := parseSourceLines_iocWf sourceLines
  have hrun1 : (sync_data_run sha512 evalEnc1 sourceLines indexLines logLines).1
      = writeIndexLines
          (syncCompute evalEnc1 (parseIndexLines indexLines).1 (parseIndexLines indexLines).2
            (parseSourceLines sourceLines)).newOrder
          (syncCompute evalEnc1 (parseIndexLines indexLines).1 (parseIndexLines indexLines).2
            (parseSourceLines sourceLines)).newMap := rfl
  obtain ⟨hp1, hA, hR, hU, hE⟩ := second_run_trivial evalEnc1 evalEnc2
    (parseIndexLines indexLines).1 (parseIndexLines indexLines).2
    (parseSourceLines sourceLines) hcw hinv2
  rw [hrun1]
  refine ⟨hA, hR, hU, hE, ?_⟩
  have hrun2 : (sync_data_run sha512 evalEnc2 sourceLines
      (writeIndexLines
        (syncCompute evalEnc1 (parseIndexLines indexLines).1 (parseIndexLines indexLines).2
          (parseSourceLines sourceLines)).newOrder
        (syncCompute evalEnc1 (parseIndexLines indexLines).1 (parseIndexLines indexLines).2
          (parseSourceLines sourceLines)).newMap)
      (sync_data_run sha512 evalEnc1 sourceLines indexLines logLines).2).2
      = append_change_events sha512
          (sync_data_run sha512 evalEnc1 sourceLines indexLines logLines).2
          (syncCompute evalEnc2
            (parseIndexLines (writeIndexLines
              (syncCompute evalEnc1 (parseIndexLines indexLines).1
                (parseIndexLines indexLines).2 (parseSourceLines sourceLines)).newOrder
              (syncCompute evalEnc1 (parseIndexLines indexLines).1
                (parseIndexLines indexLines).2 (parseSourceLines sourceLines)).newMap)).1
            (parseIndexLines (writeIndexLines
              (syncCompute evalEnc1 (parseIndexLines indexLines).1
                (parseIndexLines indexLines).2 (parseSourceLines sourceLines)).newOrder
              (syncCompute evalEnc1 (parseIndexLines indexLines).1
                (parseIndexLines indexLines).2 (parseSourceLines sourceLines)).newMap)).2
            (parseSourceLines sourceLines)).events := rfl
  rw [hrun2, hE]
  unfold append_change_events
  simp [eventLines]

end CLOAKmatch
